import Mathlib

/-!
# CMPC_Memoria: the interactive tabular state engine

A shallow embedding of the interactive logic of the dashboard pages
`HomePage.jsx`, `AnalysisDetailPage.jsx` and `NewAnalysisPage.jsx`: filtering,
sorting and paginating an in-memory record list, the row-selection store, the
feedback store and the simulated file upload.

JavaScript values are embedded as follows.

* A string is a Lean `String`, read as its list of characters; its UTF-16
  code units are `JS.codeUnits`. `includes` is the contiguous-substring test
  and the relational operator `>` on two strings is the lexicographic order on
  UTF-16 code units.
* `String.prototype.toLowerCase` folds all of Unicode by tables of the engine
  that are not part of the repository. A definition whose name ends in `With`
  takes that function as its first argument and holds for every string;
  `JS.toLowerCase` is its value on ASCII strings, where only the letters A to
  Z change, and the definitions without `With` use it: they are the code on
  ASCII strings, such as the data of the three pages.
* An array is a `List`. `Array.prototype.filter` is `List.filter`,
  `Array.prototype.slice` is `JS.slice` with JavaScript's clamping of both
  bounds.
* `Array.prototype.sort` is a builtin of the JavaScript engine, not code of
  the repository. It is embedded as the algorithm an engine runs, for the two
  engine families `JS.Engine`; see `JS.sortV8` and `JS.insertionSort`.
* A plain object used as a dictionary is `JS.Obj`, the list of its own
  key/value bindings. `JS.Obj.get` reads an own property; `JS.Obj.read` is the
  property read `o[k]`, which falls back on the properties every plain object
  inherits from `Object.prototype`.
* A number that only ever holds an integer (a page number, a length) is an
  `Int` or a `Nat`.
* Component state (`useState`) is an explicit structure; an event handler is
  a function from state to state.
* The intervals started with `setInterval` are part of the state of the page:
  the list of the handles that have not been cleared. A tick of a running
  interval is one step of the state machine; it applies the callback.
-/

namespace JS

/-- The method `String.prototype.toLowerCase` on an ASCII string: the letters A
to Z are replaced by a to z, every other character is kept. -/
def toLowerCase (s : String) : String := ⟨s.data.map Char.toLower⟩

/-- The string is made of ASCII characters. -/
def IsAscii (s : String) : Prop := ∀ c ∈ s.data, c.toNat < 128

/-- What is known of the engine's `String.prototype.toLowerCase` when it is
taken as a parameter: on an ASCII string it is `JS.toLowerCase`. -/
def FoldsAscii (toLowerCase : String → String) : Prop :=
  ∀ s : String, IsAscii s → toLowerCase s = JS.toLowerCase s

/-- The substring test on character lists: `t` starts at some position of `s`. -/
def includesChars : List Char → List Char → Bool
  | [], t => t.isEmpty
  | c :: s, t => t.isPrefixOf (c :: s) || includesChars s t

/-- The method `String.prototype.includes`: `s.includes(t)`. -/
def includes (s t : String) : Bool := includesChars s.data t.data

/-- The UTF-16 code units of a character: one unit below U+10000, a surrogate
pair from U+10000 on. -/
def utf16 (c : Char) : List Nat :=
  if c.toNat < 65536 then [c.toNat]
  else [55296 + (c.toNat - 65536) / 1024, 56320 + (c.toNat - 65536) % 1024]

/-- The UTF-16 code units of a string, the elements a JavaScript string is
made of. -/
def codeUnits (s : String) : List Nat := s.data.flatMap utf16

/-- The comparison of two code-unit sequences that the relational operators
run: at the first position where the sequences differ the smaller unit
decides; a proper initial segment is smaller. -/
def unitsLt : List Nat → List Nat → Bool
  | [], [] => false
  | [], _ :: _ => true
  | _ :: _, [] => false
  | a :: s, b :: t =>
    if a < b then true
    else if b < a then false
    else unitsLt s t

/-- The relational operator `a > b` on two strings. -/
def strGt (a b : String) : Bool := unitsLt (codeUnits b) (codeUnits a)

/-- The lexicographic order on code-unit sequences, `u ≤ v`: `u` is
lexicographically smaller than `v`, or the two are the same sequence. -/
def LexLe (u v : List Nat) : Prop := List.Lex (fun x y : Nat => x < y) u v ∨ u = v

/-- The search term `t` occurs in `s` exactly as written. -/
def ExactSubstring (t s : String) : Prop := t.data <:+: s.data

/-- The search term `t` occurs in `s` when letter case is ignored, for the case
folding `toLowerCase` of the engine: lower-cased, `t` occurs in the lower-cased
`s`. -/
def CaseInsensitiveSubstringWith (toLowerCase : String → String) (t s : String) : Prop :=
  ExactSubstring (toLowerCase t) (toLowerCase s)

/-- The search term `t` occurs in `s` when the case of the ASCII letters is
ignored: some contiguous run of characters of `s` equals `t` up to the case of
the letters A to Z. -/
def CaseInsensitiveSubstring (t s : String) : Prop :=
  ∃ u : List Char, u <:+: s.data ∧ u.map Char.toLower = t.data.map Char.toLower

/-! ### Arrays -/

/-- The method `Array.prototype.slice(start, end)`: a negative bound counts
from the end of the array, and both bounds are clamped to `[0, length]`. -/
def slice {α : Type} (xs : List α) (start stop : Int) : List α :=
  let len : Int := xs.length
  let k : Int := if start < 0 then max (len + start) 0 else min start len
  let final : Int := if stop < 0 then max (len + stop) 0 else min stop len
  (xs.drop k.toNat).take (final - k).toNat

/-- The expression `Math.ceil(n / p)` for a length `n` and a positive page
size `p`, in integer arithmetic (see `JS.ceilDiv_eq_ceil`). -/
def ceilDiv (n p : Nat) : Nat := (n + p - 1) / p

/-! ### `Array.prototype.sort`

V8 (Chrome, Node.js) sorts with TimSort (`third_party/v8/builtins/array-sort.tq`).
For an array of fewer than 64 elements the minimal run length is the array
length, so the whole array is one run: `CountAndMakeRun` finds the run at the
start of the array, reversing it when it is strictly descending, and
`BinaryInsertionSort` inserts the remaining elements one at a time. No merge
takes place. `sortV8` is that path, applied at every length. -/

/-- The loop of `CountAndMakeRun`: how many elements after `previousElement`
continue the run. -/
def runExtent {α : Type} (comparefn : α → α → Int) (isDescending : Bool) : α → List α → Nat
  | _, [] => 0
  | previousElement, currentElement :: rest =>
    let order := comparefn currentElement previousElement
    if isDescending then
      if order ≥ 0 then 0 else runExtent comparefn isDescending currentElement rest + 1
    else
      if order < 0 then 0 else runExtent comparefn isDescending currentElement rest + 1

/-- The routine `CountAndMakeRun(0, length)`: the work array after the run at
its start has been made ascending, and the length of that run. -/
def countAndMakeRun {α : Type} (comparefn : α → α → Int) : List α → List α × Nat
  | elementHigh :: elementLow :: rest =>
    let isDescending := decide (comparefn elementLow elementHigh < 0)
    let runLength := 2 + runExtent comparefn isDescending elementLow rest
    let workArray := elementHigh :: elementLow :: rest
    (if isDescending then (workArray.take runLength).reverse ++ workArray.drop runLength
      else workArray, runLength)
  | workArray => (workArray, workArray.length)

/-- The inner loop of `BinaryInsertionSort`: the insertion point of `pivot` in
`workArray[left, right)`. Every iteration shrinks `right - left`; `fuel` bounds
the number of iterations and the caller passes the length of the range (see
`JS.binarySearch_fuel`). -/
def binarySearch {α : Type} (comparefn : α → α → Int) (workArray : List α) (pivot : α) :
    Nat → Nat → Nat → Nat
  | 0, left, _ => left
  | fuel + 1, left, right =>
    if left < right then
      let mid := left + (right - left) / 2
      match workArray[mid]? with
      | none => left
      | some midElement =>
        if comparefn pivot midElement < 0 then
          binarySearch comparefn workArray pivot fuel left mid
        else
          binarySearch comparefn workArray pivot fuel (mid + 1) right
    else left

/-- The routine `BinaryInsertionSort`: `sortedPart` is `workArray[0, start)` and
the second list is `workArray[start, high)`; each pivot is inserted at the
position the binary search returns. -/
def binaryInsertionSort {α : Type} (comparefn : α → α → Int) : List α → List α → List α
  | sortedPart, [] => sortedPart
  | sortedPart, pivot :: rest =>
    let left := binarySearch comparefn sortedPart pivot sortedPart.length 0 sortedPart.length
    binaryInsertionSort comparefn (sortedPart.take left ++ pivot :: sortedPart.drop left) rest

/-- The sort of V8 on a short array: nothing for fewer than two elements,
otherwise `CountAndMakeRun` followed by `BinaryInsertionSort`. -/
def sortV8 {α : Type} (comparefn : α → α → Int) (xs : List α) : List α :=
  if xs.length < 2 then xs
  else
    let run := countAndMakeRun comparefn xs
    binaryInsertionSort comparefn (run.1.take run.2) (run.1.drop run.2)

/-- The inner loop of a linear insertion sort: `sortedRev` is the sorted part
read from its last element backwards; `item` moves in front of every element
`swap` with `comparefn(swap, item) > 0` and stops at the first other one. -/
def insertBack {α : Type} (comparefn : α → α → Int) (item : α) : List α → List α
  | [] => [item]
  | swap :: more =>
    if comparefn swap item ≤ 0 then item :: swap :: more
    else swap :: insertBack comparefn item more

/-- Linear insertion sort, the routine SpiderMonkey (Firefox) runs on a short
array (`InsertionSort` of `js/src/builtin/Sorting.js`): it calls
`comparefn(swap, item)` with the earlier element first. The routine is applied
at every length. -/
def insertionSort {α : Type} (comparefn : α → α → Int) (xs : List α) : List α :=
  (xs.foldl (fun sortedRev item => insertBack comparefn item sortedRev) []).reverse

/-- The engine that runs the page. -/
inductive Engine where
  | v8
  | spiderMonkey
deriving DecidableEq

/-- The method `Array.prototype.sort(comparefn)` as the engine runs it. -/
def arraySort {α : Type} (engine : Engine) (comparefn : α → α → Int) (xs : List α) : List α :=
  match engine with
  | .v8 => sortV8 comparefn xs
  | .spiderMonkey => insertionSort comparefn xs

/-! ### Plain objects as dictionaries -/

/-- A plain object with string keys: its own properties. -/
abbrev Obj (α : Type) := List (String × α)

/-- The own property `k` of `o`; `none` when `o` has no own property `k`. For a
key that is not the name of a property of `Object.prototype`, such as a key
with a '-' in it, this is the property read `o[k]`, and `none` is
`undefined`. -/
def Obj.get {α : Type} (o : Obj α) (k : String) : Option α := List.lookup k o

/-- The methods every plain object inherits from `Object.prototype`. -/
def objectPrototypeMethods : List String :=
  ["constructor", "hasOwnProperty", "isPrototypeOf", "propertyIsEnumerable", "toLocaleString",
    "toString", "valueOf", "__defineGetter__", "__defineSetter__", "__lookupGetter__",
    "__lookupSetter__"]

/-- The names of the properties every plain object inherits from
`Object.prototype`: its methods and the accessor `__proto__`. -/
def objectPrototypeNames : List String := "__proto__" :: objectPrototypeMethods

/-- What a property read `o[k]` on a plain object gives: `undefined`, the value
of an own property, a method inherited from `Object.prototype`, or, for
`__proto__`, the object `Object.prototype` itself. -/
inductive Property (α : Type) where
  | undefined
  | own (value : α)
  | inheritedFunction
  | inheritedObject
deriving DecidableEq

/-- The property read `o[k]` on a plain object: an own property first, then the
properties of `Object.prototype`. -/
def Obj.read {α : Type} (o : Obj α) (k : String) : Property α :=
  match o.get k with
  | some value => .own value
  | none =>
    if k ∈ objectPrototypeMethods then .inheritedFunction
    else if k = "__proto__" then .inheritedObject
    else .undefined

/-- The truthiness of what a property read gave: `undefined` is falsy, a
function and an object are truthy. -/
def Property.truthy : Property Bool → Bool
  | .undefined => false
  | .own value => value
  | .inheritedFunction => true
  | .inheritedObject => true

/-- The object literal `{...o, [k]: v}`: the binding of `k` is replaced in
place, or added at the end when `o` has none. -/
def Obj.set {α : Type} : Obj α → String → α → Obj α
  | [], k, v => [(k, v)]
  | (k', v') :: o, k, v => if k' = k then (k', v) :: o else (k', v') :: Obj.set o k v

end JS

namespace HomePage

/-- One row of the analysis list (`analysisData`). -/
structure Analysis where
  id : Nat
  name : String
  createdBy : String
  sucursal : String
  creationDate : String
  status : String
deriving DecidableEq

/-- The hardcoded analysis list of `HomePage.jsx`. -/
def analysisData : List Analysis :=
  [ { id := 1, name := "Resumen_07-2026", createdBy := "rocio@cmpc.cl",
      sucursal := "504", creationDate := "01-08-2026", status := "En proceso" },
    { id := 2, name := "Resumen_06-2026", createdBy := "javier.acuna@cmpc.cl",
      sucursal := "514", creationDate := "01-07-2026", status := "Guardado" },
    { id := 3, name := "Resumen_05-2025", createdBy := "enrique.escalona@cmpc.cl",
      sucursal := "504", creationDate := "01-06-2026", status := "Guardado" },
    { id := 4, name := "Resumen_04-2026", createdBy := "rocio@cmpc.cl",
      sucursal := "514", creationDate := "01-05-2026", status := "Guardado" },
    { id := 5, name := "Resumen_05-2026", createdBy := "javier.acuna@cmpc.cl",
      sucursal := "514", creationDate := "01-04-2026", status := "Guardado" },
    { id := 6, name := "Resumen_06-2026", createdBy := "enrique.escalona@cmpc.cl",
      sucursal := "504", creationDate := "01-03-2026", status := "Guardado" } ]

/-- The predicate handed to `analysisData.filter` in `filteredAndSortedData`,
for the engine's `toLowerCase`. -/
def matchesSearchWith (toLowerCase : String → String) (searchTerm : String)
    (analysis : Analysis) : Bool :=
  JS.includes (toLowerCase analysis.name) (toLowerCase searchTerm) ||
  JS.includes (toLowerCase analysis.createdBy) (toLowerCase searchTerm) ||
  JS.includes analysis.sucursal searchTerm

/-- The first statement of `filteredAndSortedData`, for the engine's
`toLowerCase`: the filtered list, before any sorting. -/
def filteredWith (toLowerCase : String → String) (data : List Analysis)
    (searchTerm : String) : List Analysis :=
  data.filter (matchesSearchWith toLowerCase searchTerm)

/-- The predicate handed to `analysisData.filter` in `filteredAndSortedData`, on
ASCII strings. -/
def matchesSearch (searchTerm : String) (analysis : Analysis) : Bool :=
  matchesSearchWith JS.toLowerCase searchTerm analysis

/-- The first statement of `filteredAndSortedData`: the filtered list, before
any sorting. -/
def filtered (data : List Analysis) (searchTerm : String) : List Analysis :=
  data.filter (matchesSearch searchTerm)

/-- The property names of an analysis record, the possible values of
`sortField`. -/
inductive Field where
  | id
  | name
  | createdBy
  | sucursal
  | creationDate
  | status
deriving DecidableEq

/-- The two values `sortDirection` takes. -/
inductive SortDirection where
  | asc
  | desc
deriving DecidableEq

/-- The test `a[sortField] > b[sortField]`: numeric on `id`, lexicographic on
the string fields. -/
def fieldGt : Field → Analysis → Analysis → Bool
  | .id, a, b => decide (b.id < a.id)
  | .name, a, b => JS.strGt a.name b.name
  | .createdBy, a, b => JS.strGt a.createdBy b.createdBy
  | .sucursal, a, b => JS.strGt a.sucursal b.sucursal
  | .creationDate, a, b => JS.strGt a.creationDate b.creationDate
  | .status, a, b => JS.strGt a.status b.status

/-- The value of the field in `a` is less than or equal to its value in `b`, in
the order of the values themselves: the order of the natural numbers on `id`,
the lexicographic order of the code-unit sequences on the string fields. -/
def fieldLe : Field → Analysis → Analysis → Prop
  | .id, a, b => a.id ≤ b.id
  | .name, a, b => JS.LexLe (JS.codeUnits a.name) (JS.codeUnits b.name)
  | .createdBy, a, b => JS.LexLe (JS.codeUnits a.createdBy) (JS.codeUnits b.createdBy)
  | .sucursal, a, b => JS.LexLe (JS.codeUnits a.sucursal) (JS.codeUnits b.sucursal)
  | .creationDate, a, b =>
    JS.LexLe (JS.codeUnits a.creationDate) (JS.codeUnits b.creationDate)
  | .status, a, b => JS.LexLe (JS.codeUnits a.status) (JS.codeUnits b.status)

/-- The comparator handed to `sort` in `filteredAndSortedData`. -/
def compareFn (sortField : Field) (sortDirection : SortDirection) (a b : Analysis) : Int :=
  let modifier : Int := if sortDirection = .asc then 1 else -1
  if fieldGt sortField a b then modifier else -modifier

/-- The memoised value `filteredAndSortedData`: filter, then sort a copy when a
sort field is set. The engine's `toLowerCase` and its `sort` are parameters. -/
def filteredAndSortedDataWith (toLowerCase : String → String) (engine : JS.Engine)
    (data : List Analysis) (searchTerm : String) (sortField : Option Field)
    (sortDirection : SortDirection) : List Analysis :=
  match sortField with
  | some field =>
    JS.arraySort engine (compareFn field sortDirection) (filteredWith toLowerCase data searchTerm)
  | none => filteredWith toLowerCase data searchTerm

/-- The value `filteredAndSortedData` for the case folding of ASCII strings. -/
def filteredAndSortedData (engine : JS.Engine) (data : List Analysis) (searchTerm : String)
    (sortField : Option Field) (sortDirection : SortDirection) : List Analysis :=
  filteredAndSortedDataWith JS.toLowerCase engine data searchTerm sortField sortDirection

/-- The constant `itemsPerPage`. -/
def itemsPerPage : Nat := 4

/-- The value `totalPages` for the list `rows` that `filteredAndSortedData` holds. -/
def totalPages (rows : List Analysis) : Nat := JS.ceilDiv rows.length itemsPerPage

/-- The value `paginatedData` for the list `rows` that `filteredAndSortedData` holds. -/
def paginatedData (rows : List Analysis) (currentPage : Int) : List Analysis :=
  JS.slice rows ((currentPage - 1) * itemsPerPage) (currentPage * itemsPerPage)

/-- The component state of `HomePage`. -/
structure State where
  searchTerm : String
  currentPage : Int
  sortField : Option Field
  sortDirection : SortDirection

/-- The initial values given to `useState`. -/
def State.initial : State :=
  { searchTerm := "", currentPage := 1, sortField := none, sortDirection := .asc }

/-- The rows the state displays from: `filteredAndSortedData` at that state. -/
def State.rows (engine : JS.Engine) (data : List Analysis) (s : State) : List Analysis :=
  filteredAndSortedData engine data s.searchTerm s.sortField s.sortDirection

/-- The handler `handleSort`. -/
def handleSort (s : State) (field : Field) : State :=
  if s.sortField = some field then
    { s with sortDirection := if s.sortDirection = .asc then .desc else .asc }
  else
    { s with sortField := some field, sortDirection := .asc }

/-- The handler `handlePageChange`. -/
def handlePageChange (s : State) (newPage : Int) : State :=
  { s with currentPage := newPage }

/-- The `onChange` handler of the search input. -/
def handleSearchChange (s : State) (value : String) : State :=
  { s with searchTerm := value, currentPage := 1 }

/-- The user interactions that change the state of the list. -/
inductive Event where
  | search (value : String)
  | sortClick (field : Field)
  | previous
  | next

/-- The interaction is offered by the rendered page at state `s`: only four
column headers carry a click handler; the pagination block is rendered when
`totalPages > 1`, with `Anterior` disabled on page 1 and `Siguiente` disabled
on the last page. -/
def enabled (engine : JS.Engine) (data : List Analysis) (s : State) : Event → Bool
  | .search _ => true
  | .sortClick field =>
    decide (field = .name ∨ field = .createdBy ∨ field = .sucursal ∨ field = .creationDate)
  | .previous =>
    decide (1 < totalPages (s.rows engine data)) && !decide (s.currentPage = 1)
  | .next =>
    decide (1 < totalPages (s.rows engine data)) &&
      !decide (s.currentPage = (totalPages (s.rows engine data) : Int))

/-- The state after the interaction. -/
def step (s : State) : Event → State
  | .search value => handleSearchChange s value
  | .sortClick field => handleSort s field
  | .previous => handlePageChange s (s.currentPage - 1)
  | .next => handlePageChange s (s.currentPage + 1)

/-- The states the page can be in: the initial one, and those an offered
interaction leads to. -/
inductive Reachable (engine : JS.Engine) (data : List Analysis) : State → Prop where
  | initial : Reachable engine data State.initial
  | step {s : State} (e : Event) :
      Reachable engine data s → enabled engine data s e = true → Reachable engine data (step s e)

end HomePage

namespace AnalysisDetailPage

/-- One row of the user table (`usersData`). -/
structure User where
  usuario : String
  sucursal : String
  funcion : String
  departamento : String
  asignado : String
deriving DecidableEq

/-- The hardcoded six-user sample of `AnalysisDetailPage.jsx`. -/
def usersData : List User :=
  [ { usuario := "KPPIRES", sucursal := "0504", funcion := "ANALISTA FINANCEIRO",
      departamento := "CORP_FINANCE", asignado := "OK" },
    { usuario := "ZVALASKI", sucursal := "0504", funcion := "DIRETOR GERAL",
      departamento := "DIRETORIA GERAL", asignado := "OK" },
    { usuario := "MKSOUZA", sucursal := "0504", funcion := "PORTEIRO",
      departamento := "CN_PORTARIA", asignado := "Pendiente" },
    { usuario := "ASILVA", sucursal := "0514", funcion := "CONTADOR",
      departamento := "CONTABILIDAD", asignado := "OK" },
    { usuario := "JPEREZ", sucursal := "0514", funcion := "ANALISTA",
      departamento := "RECURSOS HUMANOS", asignado := "Pendiente" },
    { usuario := "MRODRIGUEZ", sucursal := "0504", funcion := "GERENTE",
      departamento := "VENTAS", asignado := "OK" } ]

/-- The predicate handed to `usersData.filter` in `filteredUsers`, for the
engine's `toLowerCase`. -/
def matchesSearchWith (toLowerCase : String → String) (searchTerm : String) (user : User) :
    Bool :=
  JS.includes (toLowerCase user.usuario) (toLowerCase searchTerm) ||
  JS.includes (toLowerCase user.funcion) (toLowerCase searchTerm) ||
  JS.includes (toLowerCase user.departamento) (toLowerCase searchTerm)

/-- The memoised value `filteredUsers`, for the engine's `toLowerCase`. -/
def filteredUsersWith (toLowerCase : String → String) (data : List User)
    (searchTerm : String) : List User :=
  data.filter (matchesSearchWith toLowerCase searchTerm)

/-- The predicate handed to `usersData.filter` in `filteredUsers`, on ASCII
strings. -/
def matchesSearch (searchTerm : String) (user : User) : Bool :=
  matchesSearchWith JS.toLowerCase searchTerm user

/-- The memoised value `filteredUsers`. -/
def filteredUsers (data : List User) (searchTerm : String) : List User :=
  data.filter (matchesSearch searchTerm)

/-- The constant `usersPerPage`. -/
def usersPerPage : Nat := 5

/-- The value `totalUsersPages` for the list `rows` that `filteredUsers` holds. -/
def totalUsersPages (rows : List User) : Nat := JS.ceilDiv rows.length usersPerPage

/-- The value `paginatedUsers` for the list `rows` that `filteredUsers` holds. -/
def paginatedUsers (rows : List User) (currentPage : Int) : List User :=
  JS.slice rows ((currentPage - 1) * usersPerPage) (currentPage * usersPerPage)

/-- The part of the component state that drives the user table. -/
structure TableState where
  searchTerm : String
  currentPage : Int

/-- The initial values given to `useState`. -/
def TableState.initial : TableState := { searchTerm := "", currentPage := 1 }

/-- The user interactions that change the state of the user table. -/
inductive TableEvent where
  | search (value : String)
  | previous
  | next

/-- The interaction is offered by the rendered page: the pagination block is
rendered when `totalUsersPages > 1`, with `Anterior` disabled on page 1 and
`Siguiente` disabled on the last page. -/
def tableEnabled (data : List User) (s : TableState) : TableEvent → Bool
  | .search _ => true
  | .previous =>
    decide (1 < totalUsersPages (filteredUsers data s.searchTerm)) && !decide (s.currentPage = 1)
  | .next =>
    decide (1 < totalUsersPages (filteredUsers data s.searchTerm)) &&
      !decide (s.currentPage = (totalUsersPages (filteredUsers data s.searchTerm) : Int))

/-- The state after the interaction. -/
def tableStep (s : TableState) : TableEvent → TableState
  | .search value => { searchTerm := value, currentPage := 1 }
  | .previous => { s with currentPage := s.currentPage - 1 }
  | .next => { s with currentPage := s.currentPage + 1 }

/-- The states the user table can be in. -/
inductive TableReachable (data : List User) : TableState → Prop where
  | initial : TableReachable data TableState.initial
  | step {s : TableState} (e : TableEvent) :
      TableReachable data s → tableEnabled data s e = true → TableReachable data (tableStep s e)

/-- The handler `handleUserSelection`, as the updater it passes to
`setSelectedUsers`: it stores the negation of what `prev[usuario]` reads. The
negation of `undefined` is `true`, that of an inherited function or object is
`false`. -/
def handleUserSelection (prev : JS.Obj Bool) (usuario : String) : JS.Obj Bool :=
  prev.set usuario (!(prev.read usuario).truthy)

/-- The row's checkbox reads as selected. Its `checked` attribute is given
`selectedUsers[user.usuario] || false`: `false` for `undefined`, the stored
boolean for an own property. An inherited function is passed on as it is, and
React drops a function given for `checked`, so the box is unchecked; the
inherited object of `__proto__` is passed on and checks the box. -/
def isSelected (selectedUsers : JS.Obj Bool) (usuario : String) : Bool :=
  match selectedUsers.read usuario with
  | .undefined => false
  | .own value => value
  | .inheritedFunction => false
  | .inheritedObject => true

/-- The key under which `handleFeedback` files a pair. -/
def feedbackKey (usuario rol : String) : String := usuario ++ "-" ++ rol

/-- The handler `handleFeedback`, as the updater it passes to `setFeedback`;
spreading `undefined` gives the empty object. The key holds a '-', which no
property name of `Object.prototype` does, so `prev[key]` is an own property of
the store or `undefined`. -/
def handleFeedback (prev : JS.Obj (JS.Obj String)) (usuario rol type value : String) :
    JS.Obj (JS.Obj String) :=
  prev.set (feedbackKey usuario rol) (((prev.get (feedbackKey usuario rol)).getD []).set type value)

/-- The choice the store holds for a pair and a pair kind, an own property of
the entry of the pair: `feedback[key]?.[type]` after a write to that kind. -/
def storedChoice (feedback : JS.Obj (JS.Obj String)) (usuario rol type : String) :
    Option String :=
  ((feedback.get (feedbackKey usuario rol)).getD []).get type

/-- The option `value` of the pair kind is the active one in the store. -/
def isActive (feedback : JS.Obj (JS.Obj String)) (usuario rol type value : String) : Bool :=
  storedChoice feedback usuario rol type == some value

end AnalysisDetailPage

namespace JS

/-- The method `String.prototype.split(separator)` with a one-character
separator, on character lists: the pieces between the separators, in order;
a string without the separator is its own single piece. -/
def splitChars (separator : Char) : List Char → List (List Char)
  | [] => [[]]
  | c :: cs =>
    if c = separator then [] :: splitChars separator cs
    else
      match splitChars separator cs with
      | [] => [[c]]
      | piece :: pieces => (c :: piece) :: pieces

/-- The method `String.prototype.split(separator)`: `s.split('.')`. -/
def split (s : String) (separator : Char) : List String :=
  (splitChars separator s.data).map String.mk

end JS

namespace NewAnalysisPage

/-- A `File` object of the file input; only its name is read. -/
structure File where
  name : String
deriving DecidableEq

/-- The upload-related component state of `NewAnalysisPage`, with the handles
of the running intervals and the handle the next `setInterval` returns. -/
structure State where
  file : Option File
  fileName : String
  uploadProgress : Nat
  isUploading : Bool
  fileError : String
  intervals : List Nat
  nextInterval : Nat
deriving DecidableEq

/-- The initial values given to `useState`; no interval runs. -/
def State.initial : State :=
  { file := none, fileName := "", uploadProgress := 0, isUploading := false, fileError := "",
    intervals := [], nextInterval := 1 }

/-- The expression `selectedFile.name.split('.').pop().toLowerCase()`; `split`
never returns an empty array (see `JS.split_ne_nil`), so `pop` always finds a
last piece. -/
def fileExtension (name : String) : String :=
  JS.toLowerCase ((JS.split name '.').getLastD "")

/-- The handler `simulateUpload`: it sets the two state variables and starts a
new interval; no running interval is cleared. -/
def simulateUpload (s : State) : State :=
  { s with
    isUploading := true
    uploadProgress := 0
    intervals := s.intervals ++ [s.nextInterval]
    nextInterval := s.nextInterval + 1 }

/-- The handler `handleFileChange`; `selectedFile` is `e.target.files[0]`, which
is `undefined` (`none`) when the dialog was dismissed. -/
def handleFileChange (s : State) (selectedFile : Option File) : State :=
  match selectedFile with
  | none => s
  | some f =>
    if fileExtension f.name = "csv" ∨ fileExtension f.name = "xlsx" then
      simulateUpload { s with file := some f, fileName := f.name, fileError := "" }
    else
      { s with
        fileError := "Error: Solo se permiten archivos .csv o .xlsx"
        file := none
        fileName := "" }

/-- One tick of the interval with handle `interval`: the callback passes its
updater to `setUploadProgress`. An interval that has been cleared does not
fire. -/
def tick (s : State) (interval : Nat) : State :=
  if interval ∈ s.intervals then
    if s.uploadProgress ≥ 100 then
      { s with
        intervals := s.intervals.erase interval
        isUploading := false
        uploadProgress := 100 }
    else
      { s with uploadProgress := s.uploadProgress + 10 }
  else s

/-- The state after `n` ticks of one interval, with nothing else happening in
between. -/
def ticks (s : State) (interval : Nat) : Nat → State
  | 0 => s
  | n + 1 => tick (ticks s interval n) interval

/-- The handler `handleStartAnalysis`: the state it leaves and the path it
navigates to, if it does. -/
def handleStartAnalysis (s : State) : State × Option String :=
  if s.file.isNone then
    ({ s with fileError := "Debe seleccionar un archivo antes de comenzar" }, none)
  else if s.uploadProgress < 100 then
    ({ s with fileError := "Por favor espere a que se complete la carga del archivo" }, none)
  else
    (s, some "/analisis/1")

/-- The `disabled` attribute of the start button: `!file || uploadProgress < 100`. -/
def startDisabled (s : State) : Bool :=
  s.file.isNone || decide (s.uploadProgress < 100)

/-- The events of the upload state machine. -/
inductive Event where
  | fileChange (selectedFile : Option File)
  | tick (interval : Nat)
  | startAnalysis

/-- The state after the event. -/
def step (s : State) : Event → State
  | .fileChange selectedFile => handleFileChange s selectedFile
  | .tick interval => tick s interval
  | .startAnalysis => (handleStartAnalysis s).1

/-- The states the upload can be in. -/
inductive Reachable : State → Prop where
  | initial : Reachable State.initial
  | step {s : State} (e : Event) : Reachable s → Reachable (step s e)

/-- The name has the extension `ext`: `ext` is the part after its last '.'. -/
def HasExtension (name : String) (ext : List Char) : Prop :=
  ∃ stem : List Char, name.data = stem ++ '.' :: ext ∧ '.' ∉ ext

/-- The validation policy in words: the name has an extension that equals
'csv' or 'xlsx' when case is ignored. -/
def ValidName (name : String) : Prop :=
  ∃ ext : List Char, HasExtension name ext ∧
    (ext.map Char.toLower = "csv".data ∨ ext.map Char.toLower = "xlsx".data)

end NewAnalysisPage

/-! ## Theorems -/

namespace JS

theorem includesChars_iff (s t : List Char) : includesChars s t = true ↔ t <:+: s := by
  induction s with
  | nil => cases t <;> simp [includesChars]
  | cons c s ih =>
    rw [includesChars, Bool.or_eq_true, ih, List.isPrefixOf_iff_prefix, List.infix_cons_iff]

theorem includes_iff_exact (s t : String) : includes s t = true ↔ ExactSubstring t s :=
  includesChars_iff _ _

theorem infix_map_iff {α β : Type} (f : α → β) (l : List β) (xs : List α) :
    l <:+: xs.map f ↔ ∃ u, u <:+: xs ∧ u.map f = l := by
  constructor
  · rintro ⟨a, b, h⟩
    obtain ⟨ab, b', hxs, hab, _⟩ := List.map_eq_append_iff.mp h.symm
    obtain ⟨a', u, hab', _, hu⟩ := List.map_eq_append_iff.mp hab
    exact ⟨u, ⟨a', b', by rw [hxs, hab']⟩, hu⟩
  · rintro ⟨u, ⟨a, b, h⟩, rfl⟩
    exact ⟨a.map f, b.map f, by rw [← h]; simp⟩

theorem includes_lower_iff (s t : String) :
    includes (toLowerCase s) (toLowerCase t) = true ↔ CaseInsensitiveSubstring t s := by
  unfold includes toLowerCase CaseInsensitiveSubstring
  rw [includesChars_iff]
  exact infix_map_iff _ _ _

end JS



/-! ### The search filters (C1, C2) -/

namespace JS

theorem includes_iff_caseInsensitiveWith (toLowerCase : String → String) (s t : String) :
    includes (toLowerCase s) (toLowerCase t) = true ↔
      CaseInsensitiveSubstringWith toLowerCase t s :=
  includes_iff_exact _ _

theorem foldsAscii_toLowerCase : FoldsAscii toLowerCase := fun _ _ => rfl

end JS

namespace HomePage

/-- On ASCII strings the filter of the page is the filter for the engine's
`toLowerCase`. -/
theorem filteredWith_eq_filtered (toLowerCase : String → String)
    (hfold : JS.FoldsAscii toLowerCase) (data : List Analysis) (searchTerm : String)
    (hterm : JS.IsAscii searchTerm)
    (hdata : ∀ a ∈ data, JS.IsAscii a.name ∧ JS.IsAscii a.createdBy) :
    filteredWith toLowerCase data searchTerm = filtered data searchTerm := by
  unfold filteredWith filtered
  apply List.filter_congr
  intro a ha
  unfold matchesSearch matchesSearchWith
  rw [hfold _ hterm, hfold _ (hdata a ha).1, hfold _ (hdata a ha).2]

/-- C1, as stated, fails: the record with sucursal "504A" contains the search
term "504a" when case is ignored, yet the analysis-list filter drops it,
because the sucursal field is compared as written. -/
theorem filtered_drops_case_variant :
    JS.CaseInsensitiveSubstring "504a"
        (Analysis.mk 7 "Resumen_08-2026" "rocio@cmpc.cl" "504A" "01-09-2026" "Guardado").sucursal ∧
      filtered [Analysis.mk 7 "Resumen_08-2026" "rocio@cmpc.cl" "504A" "01-09-2026" "Guardado"]
        "504a" = [] := by
  refine ⟨⟨"504A".data, List.infix_refl _, by decide⟩, by decide⟩

/-- C1, amended: for every list of analysis records and every search term, the
analysis-list filter keeps a record if and only if the search term is a
case-insensitive substring of its name or of its createdBy field (lower-cased
by the engine's toLowerCase, the term occurs in the lower-cased field), or a
substring exactly as written (case-sensitive) of its sucursal field; the kept
records appear in their source order. The filter without the parameter is this
one at the case folding of ASCII strings. -/
theorem filtered_keeps_iff (toLowerCase : String → String) (data : List Analysis)
    (searchTerm : String) :
    (∃ keep : Analysis → Bool,
      (∀ a, keep a = true ↔
        (JS.CaseInsensitiveSubstringWith toLowerCase searchTerm a.name ∨
          JS.CaseInsensitiveSubstringWith toLowerCase searchTerm a.createdBy ∨
          JS.ExactSubstring searchTerm a.sucursal)) ∧
      filteredWith toLowerCase data searchTerm = data.filter keep) ∧
    filtered data searchTerm = filteredWith JS.toLowerCase data searchTerm := by
  refine ⟨⟨matchesSearchWith toLowerCase searchTerm, fun a => ?_, rfl⟩, rfl⟩
  simp only [matchesSearchWith, Bool.or_eq_true, JS.includes_iff_caseInsensitiveWith, or_assoc]
  rw [JS.includes_iff_exact]

end HomePage

namespace AnalysisDetailPage

/-- On ASCII strings the user filter of the page is the filter for the engine's
`toLowerCase`. -/
theorem filteredUsersWith_eq_filteredUsers (toLowerCase : String → String)
    (hfold : JS.FoldsAscii toLowerCase) (data : List User) (searchTerm : String)
    (hterm : JS.IsAscii searchTerm)
    (hdata : ∀ u ∈ data,
      JS.IsAscii u.usuario ∧ JS.IsAscii u.funcion ∧ JS.IsAscii u.departamento) :
    filteredUsersWith toLowerCase data searchTerm = filteredUsers data searchTerm := by
  unfold filteredUsersWith filteredUsers
  apply List.filter_congr
  intro u hu
  unfold matchesSearch matchesSearchWith
  rw [hfold _ hterm, hfold _ (hdata u hu).1, hfold _ (hdata u hu).2.1,
    hfold _ (hdata u hu).2.2]

theorem usersData_ascii :
    ∀ u ∈ usersData, JS.IsAscii u.usuario ∧ JS.IsAscii u.funcion ∧ JS.IsAscii u.departamento := by
  unfold JS.IsAscii
  decide

/-- C2, as stated, fails: on the six-user sample the search term "0504" does
not return the four users whose sucursal is "0504". -/
theorem filteredUsers_0504_ne_branch :
    filteredUsers usersData "0504" ≠ usersData.filter (fun u => u.sucursal == "0504") ∧
      (usersData.filter (fun u => u.sucursal == "0504")).map User.usuario =
        ["KPPIRES", "ZVALASKI", "MKSOUZA", "MRODRIGUEZ"] := by
  decide

/-- C2, amended: the user filter keeps a record if and only if the search term
is a case-insensitive substring of its usuario, funcion or departamento field
(lower-cased by the engine's toLowerCase, the term occurs in the lower-cased
field; the sucursal field is not searched), so on the six-user sample the
search term "0504" returns no record, whatever the engine's toLowerCase does
outside ASCII. -/
theorem filteredUsers_0504 :
    (∀ (toLowerCase : String → String) (data : List User) (searchTerm : String),
      ∃ keep : User → Bool,
        (∀ u, keep u = true ↔
          (JS.CaseInsensitiveSubstringWith toLowerCase searchTerm u.usuario ∨
            JS.CaseInsensitiveSubstringWith toLowerCase searchTerm u.funcion ∨
            JS.CaseInsensitiveSubstringWith toLowerCase searchTerm u.departamento)) ∧
        filteredUsersWith toLowerCase data searchTerm = data.filter keep) ∧
    filteredUsers usersData "0504" = [] ∧
    (∀ toLowerCase : String → String, JS.FoldsAscii toLowerCase →
      filteredUsersWith toLowerCase usersData "0504" = []) := by
  have h0504 : filteredUsers usersData "0504" = [] := by decide
  refine ⟨fun toLowerCase data searchTerm =>
      ⟨matchesSearchWith toLowerCase searchTerm, fun u => ?_, rfl⟩, h0504, ?_⟩
  · simp only [matchesSearchWith, Bool.or_eq_true, JS.includes_iff_caseInsensitiveWith,
      or_assoc]
  · intro toLowerCase hfold
    rw [filteredUsersWith_eq_filteredUsers toLowerCase hfold usersData "0504"
      (by unfold JS.IsAscii; decide) usersData_ascii, h0504]

/-- C2 at the case folding of ASCII strings. -/
theorem filteredUsers_0504_witness :
    JS.FoldsAscii JS.toLowerCase ∧ filteredUsersWith JS.toLowerCase usersData "0504" = [] :=
  ⟨JS.foldsAscii_toLowerCase, filteredUsers_0504.2.2 JS.toLowerCase JS.foldsAscii_toLowerCase⟩

end AnalysisDetailPage

/-! ### Pagination (C5, C6, C7) -/

namespace JS

theorem ceilDiv_mul_ge (n p : Nat) (hp : 0 < p) : n ≤ ceilDiv n p * p := by
  unfold ceilDiv
  have h1 := Nat.div_add_mod (n + p - 1) p
  have h2 := Nat.mod_lt (n + p - 1) hp
  rw [Nat.mul_comm] at h1
  omega

theorem ceilDiv_pred_mul_lt (n p : Nat) (hn : 0 < n) : (ceilDiv n p - 1) * p < n := by
  unfold ceilDiv
  have h1 := Nat.div_add_mod (n + p - 1) p
  rw [Nat.mul_comm] at h1
  rcases Nat.eq_zero_or_pos ((n + p - 1) / p) with h0 | h0
  · rw [h0]; simpa using hn
  · have h3 : ((n + p - 1) / p - 1) * p + p = (n + p - 1) / p * p := by
      rw [← Nat.succ_mul]; congr 1; omega
    omega

theorem ceilDiv_zero (p : Nat) (hp : 0 < p) : ceilDiv 0 p = 0 := by
  unfold ceilDiv
  exact Nat.div_eq_of_lt (by omega)

theorem ceilDiv_pos (n p : Nat) (hn : 0 < n) (hp : 0 < p) : 0 < ceilDiv n p := by
  unfold ceilDiv
  exact Nat.div_pos (by omega) hp

/-- The integer formula of `ceilDiv` is the ceiling of the exact quotient, which
is what `Math.ceil(n / p)` computes. -/
theorem ceilDiv_eq_ceil (n p : Nat) (hp : 0 < p) : ceilDiv n p = ⌈(n : ℚ) / (p : ℚ)⌉₊ := by
  have hpq : (0 : ℚ) < (p : ℚ) := by exact_mod_cast hp
  apply le_antisymm
  · rcases Nat.eq_zero_or_pos n with h0 | hn
    · subst h0; simp [ceilDiv_zero p hp]
    · have hlt := ceilDiv_pred_mul_lt n p hn
      have hpos := ceilDiv_pos n p hn hp
      have : ceilDiv n p - 1 < ⌈(n : ℚ) / (p : ℚ)⌉₊ := by
        rw [Nat.lt_ceil, lt_div_iff₀ hpq]
        exact_mod_cast hlt
      omega
  · rw [Nat.ceil_le, div_le_iff₀ hpq]
    exact_mod_cast ceilDiv_mul_ge n p hp

theorem slice_natCast {α : Type} (xs : List α) (a b : Nat) :
    slice xs (a : Int) (b : Int) = (xs.drop a).take (b - a) := by
  unfold slice
  have ha : ¬ ((a : Int) < 0) := by omega
  have hb : ¬ ((b : Int) < 0) := by omega
  simp only [ha, hb, if_false]
  by_cases hlen : a ≤ xs.length
  · have hk : (min (a : Int) (xs.length : Int)).toNat = a := by omega
    rw [hk, List.take_eq_take, List.length_drop]
    omega
  · have h1 : xs.drop a = [] := List.drop_eq_nil_of_le (by omega)
    have hk : (min (a : Int) (xs.length : Int)).toNat = xs.length := by omega
    rw [hk, h1, List.drop_eq_nil_of_le (Nat.le_refl _)]
    simp

/-- The expression `rows.slice((page - 1) * size, page * size)` for a page number
`page ≥ 1`. -/
theorem slice_page {α : Type} (rows : List α) (size : Nat) (page : Int) (h : 1 ≤ page) :
    slice rows ((page - 1) * size) (page * size) =
      (rows.drop ((page.toNat - 1) * size)).take size := by
  obtain ⟨k, rfl⟩ : ∃ k : Nat, page = (k : Int) + 1 := ⟨(page - 1).toNat, by omega⟩
  have e1 : ((k : Int) + 1 - 1) * (size : Int) = ((k * size : Nat) : Int) := by
    push_cast; ring
  have e2 : ((k : Int) + 1) * (size : Int) = ((k * size + size : Nat) : Int) := by
    push_cast; ring
  have e3 : ((k : Int) + 1).toNat - 1 = k := by omega
  rw [e1, e2, slice_natCast, e3]
  congr 1
  omega

theorem flatten_pages {α : Type} (rows : List α) (size : Nat) (k : Nat) :
    ((List.range k).map (fun i => (rows.drop (i * size)).take size)).flatten =
      rows.take (k * size) := by
  induction k with
  | zero => simp
  | succ k ih =>
    rw [List.range_succ, List.map_append, List.flatten_append, ih, Nat.succ_mul, List.take_add]
    simp

theorem getElem?_page {α : Type} (rows : List α) (lo size i : Nat) :
    ((rows.drop lo).take size)[i]? =
      if lo + i < min (lo + size) rows.length then rows[lo + i]? else none := by
  rw [List.getElem?_take, List.getElem?_drop]
  by_cases h : i < size
  · by_cases h2 : lo + i < rows.length
    · rw [if_pos h, if_pos (by omega)]
    · rw [if_pos h, if_neg (by omega), List.getElem?_eq_none (by omega)]
  · rw [if_neg h, if_neg (by omega)]

end JS

/-! ### The sort returns a rearrangement of its input -/

namespace JS

theorem binaryInsertionSort_perm {α : Type} (comparefn : α → α → Int) (rest sortedPart : List α) :
    (binaryInsertionSort comparefn sortedPart rest).Perm (sortedPart ++ rest) := by
  induction rest generalizing sortedPart with
  | nil => simp [binaryInsertionSort]
  | cons pivot rest ih =>
    rw [binaryInsertionSort]
    refine (ih _).trans ?_
    set k := binarySearch comparefn sortedPart pivot sortedPart.length 0 sortedPart.length
    have h1 : (List.take k sortedPart ++ pivot :: List.drop k sortedPart).Perm
        (pivot :: sortedPart) := by
      refine List.perm_middle.trans ?_
      rw [List.take_append_drop]
    refine (List.Perm.append_right rest h1).trans ?_
    exact (@List.perm_middle _ pivot sortedPart rest).symm

theorem countAndMakeRun_perm {α : Type} (comparefn : α → α → Int) (xs : List α) :
    (countAndMakeRun comparefn xs).1.Perm xs := by
  match xs with
  | [] => simp [countAndMakeRun]
  | [_] => simp [countAndMakeRun]
  | elementHigh :: elementLow :: rest =>
    simp only [countAndMakeRun]
    split
    · refine (List.Perm.append_right _ (List.reverse_perm _)).trans ?_
      rw [List.take_append_drop]
    · exact List.Perm.refl _

theorem sortV8_perm {α : Type} (comparefn : α → α → Int) (xs : List α) :
    (sortV8 comparefn xs).Perm xs := by
  unfold sortV8
  split
  · exact List.Perm.refl _
  · refine (binaryInsertionSort_perm comparefn _ _).trans ?_
    rw [List.take_append_drop]
    exact countAndMakeRun_perm comparefn xs

theorem insertBack_perm {α : Type} (comparefn : α → α → Int) (item : α) (sortedRev : List α) :
    (insertBack comparefn item sortedRev).Perm (item :: sortedRev) := by
  induction sortedRev with
  | nil => simp [insertBack]
  | cons swap more ih =>
    rw [insertBack]
    split
    · exact List.Perm.refl _
    · exact (List.Perm.cons swap ih).trans (List.Perm.swap item swap more)

theorem insertionSort_foldl_perm {α : Type} (comparefn : α → α → Int) (xs acc : List α) :
    (xs.foldl (fun sortedRev item => insertBack comparefn item sortedRev) acc).Perm
      (acc ++ xs) := by
  induction xs generalizing acc with
  | nil => simp
  | cons x xs ih =>
    rw [List.foldl_cons]
    refine (ih _).trans ?_
    refine (List.Perm.append_right xs (insertBack_perm comparefn x acc)).trans ?_
    exact (@List.perm_middle _ x acc xs).symm

theorem insertionSort_perm {α : Type} (comparefn : α → α → Int) (xs : List α) :
    (insertionSort comparefn xs).Perm xs := by
  unfold insertionSort
  refine (List.reverse_perm _).trans ?_
  simpa using insertionSort_foldl_perm comparefn xs []

theorem arraySort_perm {α : Type} (engine : Engine) (comparefn : α → α → Int) (xs : List α) :
    (arraySort engine comparefn xs).Perm xs := by
  cases engine
  · exact sortV8_perm comparefn xs
  · exact insertionSort_perm comparefn xs

end JS

namespace HomePage

theorem filteredAndSortedData_perm (engine : JS.Engine) (data : List Analysis)
    (searchTerm : String) (sortField : Option Field) (sortDirection : SortDirection) :
    (filteredAndSortedData engine data searchTerm sortField sortDirection).Perm
      (filtered data searchTerm) := by
  cases sortField with
  | none => exact List.Perm.refl _
  | some field => exact JS.arraySort_perm engine _ _

end HomePage

namespace Pagination

open HomePage AnalysisDetailPage

/-- C5, as stated, fails at n = 0: a search term that matches nothing leaves an
empty filtered list, for which both views compute a page count of 0, while
max(1, ceil(0 / pageSize)) is 1. -/
theorem page_count_of_empty_ne_max :
    (filtered analysisData "zzz").length = 0 ∧
      totalPages (filtered analysisData "zzz") ≠
        max 1 ⌈((filtered analysisData "zzz").length : ℚ) / (itemsPerPage : ℚ)⌉₊ ∧
      (filteredUsers usersData "zzz").length = 0 ∧
      totalUsersPages (filteredUsers usersData "zzz") ≠
        max 1 ⌈((filteredUsers usersData "zzz").length : ℚ) / (usersPerPage : ℚ)⌉₊ := by
  have h1 : filtered analysisData "zzz" = [] := by decide
  have h2 : filteredUsers usersData "zzz" = [] := by decide
  rw [h1, h2]
  simp [totalPages, totalUsersPages, JS.ceilDiv, itemsPerPage, usersPerPage]

/-- C5, amended: for every filtered record sequence of length n the computed
page count (totalPages, totalUsersPages) equals ceil(n / pageSize); this is
max(1, ceil(n / pageSize)) when n ≥ 1 and it is 0 when n = 0. -/
theorem page_count_eq_ceil (rows : List Analysis) (users : List User) :
    (totalPages rows = ⌈(rows.length : ℚ) / (itemsPerPage : ℚ)⌉₊ ∧
      totalPages rows =
        if rows.length = 0 then 0 else max 1 ⌈(rows.length : ℚ) / (itemsPerPage : ℚ)⌉₊) ∧
    (totalUsersPages users = ⌈(users.length : ℚ) / (usersPerPage : ℚ)⌉₊ ∧
      totalUsersPages users =
        if users.length = 0 then 0 else max 1 ⌈(users.length : ℚ) / (usersPerPage : ℚ)⌉₊) := by
  have key : ∀ n p : Nat, 0 < p →
      JS.ceilDiv n p = ⌈(n : ℚ) / (p : ℚ)⌉₊ ∧
        JS.ceilDiv n p = if n = 0 then 0 else max 1 ⌈(n : ℚ) / (p : ℚ)⌉₊ := by
    intro n p hp
    refine ⟨JS.ceilDiv_eq_ceil n p hp, ?_⟩
    by_cases hn : n = 0
    · rw [if_pos hn, hn]; exact JS.ceilDiv_zero p hp
    · rw [if_neg hn, ← JS.ceilDiv_eq_ceil n p hp]
      have := JS.ceilDiv_pos n p (Nat.pos_of_ne_zero hn) hp
      omega
  exact ⟨key rows.length itemsPerPage (by decide), key users.length usersPerPage (by decide)⟩

/-- C6: for a page number page ≥ 1 the displayed rows (paginatedData,
paginatedUsers) are exactly the elements of the filtered(-and-sorted) sequence
at the indices from (page - 1) * pageSize up to, and excluding,
min(page * pageSize, n); every displayed row belongs to the filtered set and at
most pageSize rows are displayed. -/
theorem displayed_rows (engine : JS.Engine) (data : List Analysis) (users : List User)
    (searchTerm : String) (sortField : Option Field) (sortDirection : SortDirection)
    (page : Int) (h : 1 ≤ page) :
    ((∀ i : Nat,
        (paginatedData (filteredAndSortedData engine data searchTerm sortField sortDirection)
            page)[i]? =
          if (page.toNat - 1) * itemsPerPage + i <
              min (page.toNat * itemsPerPage)
                (filteredAndSortedData engine data searchTerm sortField sortDirection).length
          then (filteredAndSortedData engine data searchTerm sortField sortDirection)[
            (page.toNat - 1) * itemsPerPage + i]?
          else none) ∧
      (∀ r ∈ paginatedData
          (filteredAndSortedData engine data searchTerm sortField sortDirection) page,
        r ∈ filtered data searchTerm) ∧
      (paginatedData (filteredAndSortedData engine data searchTerm sortField sortDirection)
        page).length ≤ itemsPerPage) ∧
    ((∀ i : Nat,
        (paginatedUsers (filteredUsers users searchTerm) page)[i]? =
          if (page.toNat - 1) * usersPerPage + i <
              min (page.toNat * usersPerPage) (filteredUsers users searchTerm).length
          then (filteredUsers users searchTerm)[(page.toNat - 1) * usersPerPage + i]?
          else none) ∧
      (∀ r ∈ paginatedUsers (filteredUsers users searchTerm) page,
        r ∈ filteredUsers users searchTerm) ∧
      (paginatedUsers (filteredUsers users searchTerm) page).length ≤ usersPerPage) := by
  have hhi : ∀ size : Nat, (page.toNat - 1) * size + size = page.toNat * size := by
    intro size
    obtain ⟨k, hk⟩ : ∃ k : Nat, page.toNat = k + 1 := ⟨page.toNat - 1, by omega⟩
    rw [hk, Nat.add_sub_cancel, Nat.succ_mul]
  refine ⟨⟨fun i => ?_, fun r hr => ?_, ?_⟩, ⟨fun i => ?_, fun r hr => ?_, ?_⟩⟩
  · rw [paginatedData, JS.slice_page _ _ _ h, JS.getElem?_page, hhi]
  · rw [paginatedData, JS.slice_page _ _ _ h] at hr
    exact (filteredAndSortedData_perm engine data searchTerm sortField sortDirection).mem_iff.mp
      (List.mem_of_mem_drop (List.mem_of_mem_take hr))
  · rw [paginatedData, JS.slice_page _ _ _ h, List.length_take]
    exact Nat.min_le_left _ _
  · rw [paginatedUsers, JS.slice_page _ _ _ h, JS.getElem?_page, hhi]
  · rw [paginatedUsers, JS.slice_page _ _ _ h] at hr
    exact List.mem_of_mem_drop (List.mem_of_mem_take hr)
  · rw [paginatedUsers, JS.slice_page _ _ _ h, List.length_take]
    exact Nat.min_le_left _ _

/-- C6 at page 2 of the unfiltered, unsorted sample data: the hypothesis
1 ≤ page holds and the theorem applies. -/
theorem displayed_rows_witness :
    (1 : Int) ≤ 2 ∧
      (∀ r ∈ paginatedData (filteredAndSortedData .v8 analysisData "" none .asc) 2,
        r ∈ filtered analysisData "") ∧
      (paginatedUsers (filteredUsers usersData "") 2).length ≤ usersPerPage :=
  ⟨by decide,
    (displayed_rows .v8 analysisData usersData "" none .asc 2 (by decide)).1.2.1,
    (displayed_rows .v8 analysisData usersData "" none .asc 2 (by decide)).2.2.2⟩

/-- C7: concatenating the displayed rows of pages 1, 2, ..., totalPages in page
order yields exactly the full filtered-and-sorted sequence, for the page size
of the analysis list and, for the same slice and page-count expressions, for
every positive page size. -/
theorem pages_concat (engine : JS.Engine) (data : List Analysis) (searchTerm : String)
    (sortField : Option Field) (sortDirection : SortDirection) :
    ((List.range
        (totalPages (filteredAndSortedData engine data searchTerm sortField sortDirection))).map
      (fun i : Nat =>
        paginatedData (filteredAndSortedData engine data searchTerm sortField sortDirection)
          ((i : Int) + 1))).flatten =
      filteredAndSortedData engine data searchTerm sortField sortDirection ∧
    ∀ pageSize : Nat, 0 < pageSize →
      ((List.range
          (JS.ceilDiv (filteredAndSortedData engine data searchTerm sortField sortDirection).length
            pageSize)).map
        (fun i : Nat =>
          JS.slice (filteredAndSortedData engine data searchTerm sortField sortDirection)
            (((i : Int) + 1 - 1) * pageSize) (((i : Int) + 1) * pageSize))).flatten =
        filteredAndSortedData engine data searchTerm sortField sortDirection := by
  have key : ∀ (rows : List Analysis) (pageSize : Nat), 0 < pageSize →
      ((List.range (JS.ceilDiv rows.length pageSize)).map
        (fun i : Nat =>
          JS.slice rows (((i : Int) + 1 - 1) * pageSize) (((i : Int) + 1) * pageSize))).flatten =
        rows := by
    intro rows pageSize hp
    have hfun : (fun i : Nat =>
          JS.slice rows (((i : Int) + 1 - 1) * pageSize) (((i : Int) + 1) * pageSize)) =
        fun i : Nat => (rows.drop (i * pageSize)).take pageSize := by
      funext i
      have hi : ((i : Int) + 1).toNat - 1 = i := by omega
      rw [JS.slice_page rows pageSize ((i : Int) + 1) (by omega), hi]
    rw [hfun, JS.flatten_pages]
    exact List.take_of_length_le (JS.ceilDiv_mul_ge _ _ hp)
  exact ⟨key _ itemsPerPage (by decide), fun pageSize hp => key _ pageSize hp⟩

/-- C7 on the sample data with a page size of 4: two pages, whose rows
concatenate to the six records. -/
theorem pages_concat_witness :
    0 < 4 ∧
      ((List.range (JS.ceilDiv (filteredAndSortedData .v8 analysisData "" none .asc).length 4)).map
        (fun i : Nat =>
          JS.slice (filteredAndSortedData .v8 analysisData "" none .asc)
            (((i : Int) + 1 - 1) * (4 : Nat)) (((i : Int) + 1) * (4 : Nat)))).flatten =
        filteredAndSortedData .v8 analysisData "" none .asc :=
  ⟨by decide, (pages_concat .v8 analysisData "" none .asc).2 4 (by decide)⟩

end Pagination

/-! ### The current page stays within the page range (C8) -/

namespace HomePage

theorem totalPages_rows (engine : JS.Engine) (data : List Analysis) (s : State) :
    totalPages (s.rows engine data) =
      JS.ceilDiv (filtered data s.searchTerm).length itemsPerPage := by
  unfold totalPages State.rows
  rw [(filteredAndSortedData_perm engine data s.searchTerm s.sortField s.sortDirection).length_eq]

theorem handleSort_searchTerm (s : State) (field : Field) :
    (handleSort s field).searchTerm = s.searchTerm ∧
      (handleSort s field).currentPage = s.currentPage := by
  unfold handleSort
  split <;> exact ⟨rfl, rfl⟩

theorem reachable_currentPage (engine : JS.Engine) (data : List Analysis) (s : State)
    (hs : Reachable engine data s) :
    1 ≤ s.currentPage ∧ s.currentPage ≤ max 1 (totalPages (s.rows engine data) : Int) := by
  induction hs with
  | initial => exact ⟨le_refl _, le_max_left _ _⟩
  | @step s e _ hen ih =>
    cases e with
    | search value => exact ⟨le_refl _, le_max_left _ _⟩
    | sortClick field =>
      have h := handleSort_searchTerm s field
      rw [totalPages_rows] at ih ⊢
      simp only [step, h.1, h.2]
      exact ih
    | previous =>
      simp only [enabled, Bool.and_eq_true, decide_eq_true_eq, Bool.not_eq_true',
        decide_eq_false_iff_not] at hen
      rw [totalPages_rows] at ih hen ⊢
      simp only [step, handlePageChange]
      omega
    | next =>
      simp only [enabled, Bool.and_eq_true, decide_eq_true_eq, Bool.not_eq_true',
        decide_eq_false_iff_not] at hen
      rw [totalPages_rows] at ih hen ⊢
      simp only [step, handlePageChange]
      omega

end HomePage

namespace AnalysisDetailPage

theorem tableReachable_currentPage (data : List User) (s : TableState)
    (hs : TableReachable data s) :
    1 ≤ s.currentPage ∧
      s.currentPage ≤ max 1 (totalUsersPages (filteredUsers data s.searchTerm) : Int) := by
  induction hs with
  | initial => exact ⟨le_refl _, le_max_left _ _⟩
  | @step s e _ hen ih =>
    cases e with
    | search value => exact ⟨le_refl _, le_max_left _ _⟩
    | previous =>
      simp only [tableEnabled, Bool.and_eq_true, decide_eq_true_eq, Bool.not_eq_true',
        decide_eq_false_iff_not] at hen
      simp only [tableStep]
      omega
    | next =>
      simp only [tableEnabled, Bool.and_eq_true, decide_eq_true_eq, Bool.not_eq_true',
        decide_eq_false_iff_not] at hen
      simp only [tableStep]
      omega

end AnalysisDetailPage

namespace Pagination

open HomePage AnalysisDetailPage

/-- C8, as stated, fails: typing a search term that matches nothing is a
reachable state of either view in which currentPage is 1 while the page count
of the filtered set is 0, so currentPage ≤ totalPages does not hold. -/
theorem current_page_above_page_count :
    (Reachable .v8 analysisData (step State.initial (.search "zzz")) ∧
      ¬ ((step State.initial (.search "zzz")).currentPage ≤
        (totalPages ((step State.initial (.search "zzz")).rows .v8 analysisData) : Int))) ∧
    (TableReachable usersData (tableStep TableState.initial (.search "zzz")) ∧
      ¬ ((tableStep TableState.initial (.search "zzz")).currentPage ≤
        (totalUsersPages
          (filteredUsers usersData (tableStep TableState.initial (.search "zzz")).searchTerm) :
          Int))) := by
  refine ⟨⟨Reachable.step _ Reachable.initial rfl, by decide⟩,
    ⟨TableReachable.step _ TableReachable.initial rfl, by decide⟩⟩

/-- C8, amended: in every state of the analysis list and of the user table
reachable through search-term changes, sort-header clicks and the Previous/Next
clicks the view enables, 1 ≤ currentPage ≤ max(1, totalPages), where totalPages
is the page count the view computes for the current filtered set (0 when the
set is empty); and immediately after every search-term change currentPage
is 1. -/
theorem current_page_in_range (engine : JS.Engine) (data : List Analysis) (s : State)
    (users : List User) (t : TableState)
    (hs : Reachable engine data s) (ht : TableReachable users t) :
    (1 ≤ s.currentPage ∧ s.currentPage ≤ max 1 (totalPages (s.rows engine data) : Int)) ∧
      (∀ value : String, (step s (.search value)).currentPage = 1) ∧
      (1 ≤ t.currentPage ∧
        t.currentPage ≤ max 1 (totalUsersPages (filteredUsers users t.searchTerm) : Int)) ∧
      (∀ value : String, (tableStep t (.search value)).currentPage = 1) :=
  ⟨reachable_currentPage engine data s hs, fun _ => rfl,
    tableReachable_currentPage users t ht, fun _ => rfl⟩

/-- C8 at the initial states of the two views over the sample data. -/
theorem current_page_in_range_witness :
    Reachable .v8 analysisData State.initial ∧ TableReachable usersData TableState.initial ∧
      (1 ≤ State.initial.currentPage ∧
        State.initial.currentPage ≤
          max 1 (totalPages (State.initial.rows .v8 analysisData) : Int)) :=
  ⟨Reachable.initial, TableReachable.initial,
    (current_page_in_range .v8 analysisData State.initial usersData TableState.initial
      Reachable.initial TableReachable.initial).1⟩

end Pagination

/-! ### The selection store and the feedback store (C9, C10) -/

namespace JS

theorem lookup_cons_ite {α : Type} (k' k0 : String) (v0 : α) (o : List (String × α)) :
    List.lookup k' ((k0, v0) :: o) = if k' = k0 then some v0 else List.lookup k' o := by
  by_cases h : k' = k0
  · subst h; simp [List.lookup]
  · have hb : (k' == k0) = false := by simpa using h
    simp [List.lookup, hb, h]

theorem Obj.get_set {α : Type} (o : Obj α) (k k' : String) (v : α) :
    (o.set k v).get k' = if k' = k then some v else o.get k' := by
  unfold Obj.get
  induction o with
  | nil =>
    rw [Obj.set, lookup_cons_ite]
  | cons kv o ih =>
    obtain ⟨k0, v0⟩ := kv
    rw [Obj.set]
    by_cases h0 : k0 = k
    · subst h0
      rw [if_pos rfl, lookup_cons_ite, lookup_cons_ite]
      by_cases h : k' = k0
      · rw [if_pos h, if_pos h]
      · rw [if_neg h, if_neg h, if_neg h]
    · rw [if_neg h0, lookup_cons_ite, lookup_cons_ite, ih]
      by_cases h : k' = k
      · subst h
        rw [if_pos rfl, if_pos rfl, if_neg (fun h' => h0 h'.symm)]
      · rw [if_neg h, if_neg h]

end JS

namespace AnalysisDetailPage

theorem read_set (o : JS.Obj Bool) (k k' : String) (v : Bool) :
    (o.set k v).read k' = if k' = k then JS.Property.own v else o.read k' := by
  unfold JS.Obj.read
  rw [JS.Obj.get_set]
  by_cases h : k' = k
  · rw [if_pos h, if_pos h]
  · rw [if_neg h, if_neg h]

theorem isSelected_handleUserSelection (selectedUsers : JS.Obj Bool) (usuario other : String) :
    isSelected (handleUserSelection selectedUsers usuario) other =
      if other = usuario then !(selectedUsers.read usuario).truthy
      else isSelected selectedUsers other := by
  unfold isSelected handleUserSelection
  rw [read_set]
  by_cases h : other = usuario
  · rw [if_pos h, if_pos h]
  · rw [if_neg h, if_neg h]

/-- Unless the read gives an inherited method, the value the handler negates
is what the checkbox shows. -/
theorem truthy_read_eq_isSelected (selectedUsers : JS.Obj Bool) (usuario : String)
    (h : usuario ∉ JS.objectPrototypeNames ∨ (selectedUsers.get usuario).isSome = true) :
    (selectedUsers.read usuario).truthy = isSelected selectedUsers usuario := by
  unfold isSelected JS.Obj.read
  cases hget : selectedUsers.get usuario with
  | some value => rfl
  | none =>
    rcases h with h | h
    · have h1 : usuario ∉ JS.objectPrototypeMethods := fun hm =>
        h (List.mem_cons_of_mem _ hm)
      have h2 : usuario ≠ "__proto__" := fun he => h (by rw [he]; exact List.mem_cons_self _ _)
      simp only [h1, h2, if_false]
      rfl
    · rw [hget] at h
      exact absurd h (by decide)

/-- C9, as stated, fails for the user id "constructor" on the initial, empty
selection: the read gives the inherited method, which the checkbox shows as
unselected and the handler negates to false. The id reads unselected before
the calls, unselected after the first call and selected after the second. -/
theorem inherited_name_not_restored :
    isSelected [] "constructor" = false ∧
      isSelected (handleUserSelection [] "constructor") "constructor" = false ∧
      isSelected (handleUserSelection (handleUserSelection [] "constructor") "constructor")
        "constructor" = true := by
  decide

/-- C9, amended: for every selection state and every user id that is not the
name of a property inherited from Object.prototype (such as "constructor" or
"toString"), or for which the state already holds an own entry, applying
handleUserSelection to the id twice in succession yields the selection set
(the ids whose checkbox reads as selected) of before the two calls; the first
call flips the membership of that id and leaves every other id as it was, and
the second call restores it. -/
theorem handleUserSelection_twice (selectedUsers : JS.Obj Bool) (usuario : String)
    (h : usuario ∉ JS.objectPrototypeNames ∨ (selectedUsers.get usuario).isSome = true) :
    (∀ other : String,
      isSelected (handleUserSelection (handleUserSelection selectedUsers usuario) usuario) other =
        isSelected selectedUsers other) ∧
    isSelected (handleUserSelection selectedUsers usuario) usuario =
      !isSelected selectedUsers usuario ∧
    (∀ other : String, other ≠ usuario →
      isSelected (handleUserSelection selectedUsers usuario) other =
        isSelected selectedUsers other) := by
  have hflip : isSelected (handleUserSelection selectedUsers usuario) usuario =
      !isSelected selectedUsers usuario := by
    rw [isSelected_handleUserSelection, if_pos rfl, truthy_read_eq_isSelected _ _ h]
  have hown : ((handleUserSelection selectedUsers usuario).get usuario).isSome = true := by
    unfold handleUserSelection
    rw [JS.Obj.get_set, if_pos rfl]
    rfl
  refine ⟨fun other => ?_, hflip, fun other hne => ?_⟩
  · rw [isSelected_handleUserSelection]
    by_cases hother : other = usuario
    · rw [if_pos hother, truthy_read_eq_isSelected _ _ (Or.inr hown), hflip, hother]
      simp
    · rw [if_neg hother, isSelected_handleUserSelection, if_neg hother]
  · rw [isSelected_handleUserSelection, if_neg hne]

/-- C9 on the empty selection for the user id "KPPIRES", which is not an
inherited name: two calls leave it unselected, one call selects it. -/
theorem handleUserSelection_twice_witness :
    ("KPPIRES" ∉ JS.objectPrototypeNames ∨ (JS.Obj.get ([] : JS.Obj Bool) "KPPIRES").isSome = true) ∧
      isSelected (handleUserSelection (handleUserSelection [] "KPPIRES") "KPPIRES") "KPPIRES" =
        isSelected [] "KPPIRES" ∧
      isSelected (handleUserSelection [] "KPPIRES") "KPPIRES" = true :=
  ⟨Or.inl (by decide),
    (handleUserSelection_twice [] "KPPIRES" (Or.inl (by decide))).1 "KPPIRES",
    (handleUserSelection_twice [] "KPPIRES" (Or.inl (by decide))).2.1⟩

theorem storedChoice_handleFeedback (feedback : JS.Obj (JS.Obj String))
    (usuario rol type value : String) :
    storedChoice (handleFeedback feedback usuario rol type value) usuario rol type =
      some value := by
  unfold storedChoice handleFeedback
  rw [JS.Obj.get_set]
  simp [JS.Obj.get_set]

/-- C10: after every non-empty sequence of handleFeedback writes, of values in
'no' and 'si', to one pair kind of one (usuario, rol) pair, the store holds for
that pair kind the last value written, and exactly one of the two options is
active: that one. -/
theorem handleFeedback_last_write (feedback : JS.Obj (JS.Obj String))
    (usuario rol type : String) (values : List String) (hne : values ≠ [])
    (hval : ∀ v ∈ values, v = "no" ∨ v = "si") :
    storedChoice (values.foldl (fun s v => handleFeedback s usuario rol type v) feedback)
        usuario rol type = some (values.getLast hne) ∧
      (∀ option : String,
        isActive (values.foldl (fun s v => handleFeedback s usuario rol type v) feedback)
            usuario rol type option = true ↔ option = values.getLast hne) ∧
      ((isActive (values.foldl (fun s v => handleFeedback s usuario rol type v) feedback)
            usuario rol type "no" = true ∧
          isActive (values.foldl (fun s v => handleFeedback s usuario rol type v) feedback)
            usuario rol type "si" = false) ∨
        (isActive (values.foldl (fun s v => handleFeedback s usuario rol type v) feedback)
            usuario rol type "no" = false ∧
          isActive (values.foldl (fun s v => handleFeedback s usuario rol type v) feedback)
            usuario rol type "si" = true)) := by
  have hstored :
      storedChoice (values.foldl (fun s v => handleFeedback s usuario rol type v) feedback)
        usuario rol type = some (values.getLast hne) := by
    conv_lhs => rw [← List.dropLast_append_getLast hne]
    rw [List.foldl_append, List.foldl_cons, List.foldl_nil, storedChoice_handleFeedback]
  have hlast := hval _ (List.getLast_mem hne)
  refine ⟨hstored, fun option => ?_, ?_⟩
  · unfold isActive
    rw [hstored, beq_iff_eq, Option.some.injEq]
    exact eq_comm
  · unfold isActive
    rw [hstored]
    rcases hlast with h | h <;> rw [h] <;> decide

/-- C10 for the two writes 'no' then 'si' to the 'feedback' kind of a pair of
the sample data, starting from the empty store. -/
theorem handleFeedback_last_write_witness :
    storedChoice
        (["no", "si"].foldl
          (fun s v => handleFeedback s "KPPIRES" "ZD_ALCOPCO-001-01-001:0514" "feedback" v) [])
        "KPPIRES" "ZD_ALCOPCO-001-01-001:0514" "feedback" = some "si" :=
  (handleFeedback_last_write [] "KPPIRES" "ZD_ALCOPCO-001-01-001:0514" "feedback" ["no", "si"]
    (by decide) (by decide)).1

end AnalysisDetailPage

/-! ### The relational operator `>` and the order of the field values -/

namespace JS

theorem unitsLt_irrefl (s : List Nat) : unitsLt s s = false := by
  induction s with
  | nil => rfl
  | cons a s ih => simp [unitsLt, ih]

theorem unitsLt_trans (s t u : List Nat) (h1 : unitsLt s t = true) (h2 : unitsLt t u = true) :
    unitsLt s u = true := by
  induction s generalizing t u with
  | nil =>
    cases t with
    | nil => simp [unitsLt] at h1
    | cons b t =>
      cases u with
      | nil => simp [unitsLt] at h2
      | cons c u => rfl
  | cons a s ih =>
    cases t with
    | nil => simp [unitsLt] at h1
    | cons b t =>
      cases u with
      | nil => simp [unitsLt] at h2
      | cons c u =>
        simp only [unitsLt] at h1 h2 ⊢
        by_cases hab : a < b
        · by_cases hbc : b < c
          · rw [if_pos (by omega)]
          · rw [if_neg hbc] at h2
            by_cases hcb : c < b
            · rw [if_pos hcb] at h2; exact absurd h2 (by decide)
            · rw [if_pos (by omega)]
        · rw [if_neg hab] at h1
          by_cases hba : b < a
          · rw [if_pos hba] at h1; exact absurd h1 (by decide)
          · rw [if_neg hba] at h1
            by_cases hbc : b < c
            · rw [if_pos (by omega)]
            · rw [if_neg hbc] at h2
              by_cases hcb : c < b
              · rw [if_pos hcb] at h2; exact absurd h2 (by decide)
              · rw [if_neg hcb] at h2
                rw [if_neg (by omega), if_neg (by omega)]
                exact ih t u h1 h2

theorem unitsLt_connected (s t : List Nat) (h1 : unitsLt s t = false)
    (h2 : unitsLt t s = false) : s = t := by
  induction s generalizing t with
  | nil =>
    cases t with
    | nil => rfl
    | cons b t => simp [unitsLt] at h1
  | cons a s ih =>
    cases t with
    | nil => simp [unitsLt] at h2
    | cons b t =>
      simp only [unitsLt] at h1 h2
      by_cases hab : a < b
      · rw [if_pos hab] at h1; exact absurd h1 (by decide)
      · rw [if_neg hab] at h1
        by_cases hba : b < a
        · rw [if_pos hba] at h2; exact absurd h2 (by decide)
        · rw [if_neg hba] at h1 h2
          rw [if_neg hab] at h2
          have hunit : a = b := by omega
          rw [hunit, ih t h1 h2]

/-- The comparison loop decides the lexicographic order of the library. -/
theorem unitsLt_iff_lex (s t : List Nat) :
    unitsLt s t = true ↔ List.Lex (fun x y : Nat => x < y) s t := by
  induction s generalizing t with
  | nil =>
    cases t with
    | nil =>
      constructor
      · intro h; exact absurd h (by decide)
      · intro h; exact absurd h (List.Lex.not_nil_right _ _)
    | cons b t => exact ⟨fun _ => List.Lex.nil, fun _ => rfl⟩
  | cons a s ih =>
    cases t with
    | nil =>
      constructor
      · intro h; simp [unitsLt] at h
      · intro h; exact absurd h (List.Lex.not_nil_right _ _)
    | cons b t =>
      simp only [unitsLt]
      by_cases hab : a < b
      · rw [if_pos hab]
        exact ⟨fun _ => List.Lex.rel hab, fun _ => rfl⟩
      · rw [if_neg hab]
        by_cases hba : b < a
        · rw [if_pos hba]
          constructor
          · intro h; exact absurd h (by decide)
          · intro h
            cases h with
            | cons h' => exact absurd hba (Nat.lt_irrefl _)
            | rel h' => exact absurd h' hab
        · rw [if_neg hba]
          have hunit : a = b := by omega
          subst hunit
          rw [ih t]
          exact List.Lex.cons_iff.symm

theorem unitsLt_false_iff (s t : List Nat) : unitsLt t s = false ↔ LexLe s t := by
  unfold LexLe
  rw [← unitsLt_iff_lex]
  constructor
  · intro h
    by_cases h2 : unitsLt s t = true
    · exact Or.inl h2
    · exact Or.inr (unitsLt_connected s t (by simpa using h2) h)
  · rintro (h | h)
    · by_contra hc
      have hc2 : unitsLt t s = true := by simpa using hc
      have h3 := unitsLt_trans _ _ _ h hc2
      rw [unitsLt_irrefl] at h3
      exact absurd h3 (by decide)
    · rw [h]; exact unitsLt_irrefl _

theorem strGt_false_iff (a b : String) :
    strGt a b = false ↔ LexLe (codeUnits a) (codeUnits b) :=
  unitsLt_false_iff _ _

theorem strGt_negTrans (a b c : String) (h1 : strGt a b = false) (h2 : strGt b c = false) :
    strGt a c = false := by
  unfold strGt at *
  by_contra hc
  have hc2 : unitsLt (codeUnits c) (codeUnits a) = true := by simpa using hc
  by_cases h3 : unitsLt (codeUnits b) (codeUnits c) = true
  · have h4 := unitsLt_trans _ _ _ h3 hc2
    rw [h1] at h4
    exact absurd h4 (by decide)
  · have h5 := unitsLt_connected _ _ (by simpa using h3) h2
    rw [h5, hc2] at h1
    exact absurd h1 (by decide)

theorem strGt_asymm (a b : String) (h : strGt a b = true) : strGt b a = false := by
  unfold strGt at *
  by_contra hc
  have hc2 : unitsLt (codeUnits a) (codeUnits b) = true := by simpa using hc
  have h3 := unitsLt_trans _ _ _ h hc2
  rw [unitsLt_irrefl] at h3
  exact absurd h3 (by decide)

end JS

namespace HomePage

/-- The test `a[field] > b[field]` of the comparator fails exactly when the
value of `a` is less than or equal to that of `b` in the order of the values. -/
theorem fieldGt_false_iff (field : Field) (a b : Analysis) :
    fieldGt field a b = false ↔ fieldLe field a b := by
  cases field <;> simp only [fieldGt, fieldLe, JS.strGt_false_iff]
  simp only [decide_eq_false_iff_not]
  omega

theorem fieldGt_negTrans (field : Field) (a b c : Analysis)
    (h1 : fieldGt field a b = false) (h2 : fieldGt field b c = false) :
    fieldGt field a c = false := by
  cases field <;> simp only [fieldGt] at h1 h2 ⊢ <;>
    first
    | exact JS.strGt_negTrans _ _ _ h1 h2
    | (simp only [decide_eq_false_iff_not] at h1 h2 ⊢; omega)

theorem fieldGt_asymm (field : Field) (a b : Analysis) (h : fieldGt field a b = true) :
    fieldGt field b a = false := by
  cases field <;> simp only [fieldGt] at h ⊢ <;>
    first
    | exact JS.strGt_asymm _ _ h
    | (simp only [decide_eq_true_eq] at h; simp only [decide_eq_false_iff_not]; omega)

theorem fieldLe_of_fieldGt (field : Field) (a b : Analysis) (h : fieldGt field a b = true) :
    fieldLe field b a :=
  (fieldGt_false_iff field b a).mp (fieldGt_asymm field a b h)

theorem fieldLe_trans (field : Field) (a b c : Analysis)
    (h1 : fieldLe field a b) (h2 : fieldLe field b c) : fieldLe field a c := by
  rw [← fieldGt_false_iff] at h1 h2 ⊢
  exact fieldGt_negTrans field a b c h1 h2

end HomePage

/-! ### The sort returns a list in order

The two routines are proved against a comparator that decides a transitive
relation `le`: a negative (or non-positive) result puts the first argument
before the second, any other result puts it after. -/

namespace JS

theorem binarySearch_step {α : Type} (comparefn : α → α → Int) (workArray : List α) (pivot : α)
    (fuel left right : Nat) (midElement : α) (hlt : left < right)
    (hmid : workArray[left + (right - left) / 2]? = some midElement) :
    binarySearch comparefn workArray pivot (fuel + 1) left right =
      if comparefn pivot midElement < 0 then
        binarySearch comparefn workArray pivot fuel left (left + (right - left) / 2)
      else
        binarySearch comparefn workArray pivot fuel (left + (right - left) / 2 + 1) right := by
  rw [binarySearch]
  simp only [hlt, if_true, hmid]

theorem binarySearch_done {α : Type} (comparefn : α → α → Int) (workArray : List α) (pivot : α)
    (fuel left right : Nat) (h : ¬ left < right) :
    binarySearch comparefn workArray pivot fuel left right = left := by
  cases fuel with
  | zero => rfl
  | succ fuel => rw [binarySearch]; simp only [h, if_false]

/-- The search ends before its fuel does: with at least `right - left` units it
returns what it returns with exactly that many. -/
theorem binarySearch_fuel {α : Type} (comparefn : α → α → Int) (workArray : List α) (pivot : α)
    (fuel left right : Nat) (hr : right ≤ workArray.length) (hfuel : right - left ≤ fuel) :
    binarySearch comparefn workArray pivot fuel left right =
      binarySearch comparefn workArray pivot (right - left) left right := by
  induction fuel using Nat.strong_induction_on generalizing left right with
  | _ fuel ih =>
    by_cases hlt : left < right
    · obtain ⟨e, he⟩ : ∃ e, workArray[left + (right - left) / 2]? = some e :=
        ⟨workArray[left + (right - left) / 2], List.getElem?_eq_getElem (by omega)⟩
      obtain ⟨f, rfl⟩ : ∃ f, fuel = f + 1 := ⟨fuel - 1, by omega⟩
      obtain ⟨d, hd⟩ : ∃ d, right - left = d + 1 := ⟨right - left - 1, by omega⟩
      rw [hd, binarySearch_step _ _ _ _ _ _ e hlt he, binarySearch_step _ _ _ _ _ _ e hlt he]
      split
      · rw [ih f (by omega) left _ (by omega) (by omega),
          ih d (by omega) left _ (by omega) (by omega)]
      · rw [ih f (by omega) _ right hr (by omega), ih d (by omega) _ right hr (by omega)]
    · rw [binarySearch_done _ _ _ _ _ _ hlt, binarySearch_done _ _ _ _ _ _ hlt]

theorem binarySearch_spec {α : Type} (comparefn : α → α → Int) (le : α → α → Prop)
    (htrans : ∀ a b c, le a b → le b c → le a c)
    (hneg : ∀ x y, comparefn x y < 0 → le x y)
    (hnonneg : ∀ x y, ¬ comparefn x y < 0 → le y x)
    (workArray : List α) (hsorted : workArray.Pairwise le) (pivot : α)
    (fuel left right : Nat) (hlr : left ≤ right) (hr : right ≤ workArray.length)
    (hfuel : right - left ≤ fuel)
    (hleft : ∀ e ∈ workArray.take left, le e pivot)
    (hright : ∀ e ∈ workArray.drop right, le pivot e) :
    (∀ e ∈ workArray.take (binarySearch comparefn workArray pivot fuel left right), le e pivot) ∧
      (∀ e ∈ workArray.drop (binarySearch comparefn workArray pivot fuel left right),
        le pivot e) := by
  induction fuel generalizing left right with
  | zero =>
    have : left = right := by omega
    subst this
    exact ⟨hleft, hright⟩
  | succ fuel ih =>
    by_cases hlt : left < right
    · have hm : left + (right - left) / 2 < workArray.length := by omega
      have he : workArray[left + (right - left) / 2]? =
          some workArray[left + (right - left) / 2] := List.getElem?_eq_getElem hm
      have hsplit := List.take_append_drop (left + (right - left) / 2) workArray
      rw [List.drop_eq_getElem_cons hm] at hsplit
      rw [← hsplit] at hsorted
      obtain ⟨_, hcons, hcross⟩ := List.pairwise_append.mp hsorted
      obtain ⟨hhead, _⟩ := List.pairwise_cons.mp hcons
      rw [binarySearch_step _ _ _ _ _ _ _ hlt he]
      split
      · rename_i hc
        refine ih left _ (by omega) (by omega) (by omega) hleft ?_
        intro x hx
        rw [List.drop_eq_getElem_cons hm, List.mem_cons] at hx
        rcases hx with hx | hx
        · rw [hx]; exact hneg _ _ hc
        · exact htrans _ _ _ (hneg _ _ hc) (hhead x hx)
      · rename_i hc
        refine ih _ right (by omega) hr (by omega) ?_ hright
        intro x hx
        rw [List.take_succ, he, Option.toList_some, List.mem_append, List.mem_singleton] at hx
        rcases hx with hx | hx
        · exact htrans _ _ _ (hcross x hx _ (List.mem_cons_self _ _)) (hnonneg _ _ hc)
        · rw [hx]; exact hnonneg _ _ hc
    · rw [binarySearch_done _ _ _ _ _ _ hlt]
      have : left = right := by omega
      subst this
      exact ⟨hleft, hright⟩

theorem pairwise_insertAt {α : Type} (le : α → α → Prop) (workArray : List α)
    (hsorted : workArray.Pairwise le) (pivot : α) (k : Nat)
    (h1 : ∀ e ∈ workArray.take k, le e pivot) (h2 : ∀ e ∈ workArray.drop k, le pivot e) :
    (workArray.take k ++ pivot :: workArray.drop k).Pairwise le := by
  have hsplit := hsorted
  rw [← List.take_append_drop k workArray] at hsplit
  obtain ⟨ht, hd, hcross⟩ := List.pairwise_append.mp hsplit
  refine List.pairwise_append.mpr ⟨ht, List.pairwise_cons.mpr ⟨h2, hd⟩, ?_⟩
  intro a ha b hb
  rcases List.mem_cons.mp hb with hb | hb
  · rw [hb]; exact h1 a ha
  · exact hcross a ha b hb

theorem binaryInsertionSort_pairwise {α : Type} (comparefn : α → α → Int) (le : α → α → Prop)
    (htrans : ∀ a b c, le a b → le b c → le a c)
    (hneg : ∀ x y, comparefn x y < 0 → le x y)
    (hnonneg : ∀ x y, ¬ comparefn x y < 0 → le y x)
    (rest sortedPart : List α) (hsorted : sortedPart.Pairwise le) :
    (binaryInsertionSort comparefn sortedPart rest).Pairwise le := by
  induction rest generalizing sortedPart with
  | nil => exact hsorted
  | cons pivot rest ih =>
    rw [binaryInsertionSort]
    apply ih
    obtain ⟨h1, h2⟩ := binarySearch_spec comparefn le htrans hneg hnonneg sortedPart hsorted pivot
      sortedPart.length 0 sortedPart.length (Nat.zero_le _) (Nat.le_refl _) (by omega)
      (by simp) (by simp)
    exact pairwise_insertAt le sortedPart hsorted pivot _ h1 h2

theorem runExtent_le {α : Type} (comparefn : α → α → Int) (isDescending : Bool)
    (rest : List α) (previousElement : α) :
    runExtent comparefn isDescending previousElement rest ≤ rest.length := by
  induction rest generalizing previousElement with
  | nil => simp [runExtent]
  | cons currentElement rest ih =>
    have := ih currentElement
    simp only [runExtent, List.length_cons]
    split <;> split <;> omega

theorem runExtent_pairwise {α : Type} (comparefn : α → α → Int) (isDescending : Bool)
    (R : α → α → Prop) (htrans : ∀ a b c, R a b → R b c → R a c)
    (hstep : ∀ cur prev,
      (if isDescending then comparefn cur prev < 0 else ¬ comparefn cur prev < 0) → R prev cur)
    (rest : List α) (previousElement : α) :
    (previousElement ::
      rest.take (runExtent comparefn isDescending previousElement rest)).Pairwise R := by
  induction rest generalizing previousElement with
  | nil => simp [runExtent]
  | cons currentElement rest ih =>
    have key : ∀ hcont :
        (if isDescending then comparefn currentElement previousElement < 0
          else ¬ comparefn currentElement previousElement < 0),
        (previousElement :: (currentElement :: rest).take
          (runExtent comparefn isDescending currentElement rest + 1)).Pairwise R := by
      intro hcont
      have hR := hstep currentElement previousElement hcont
      have hih := ih currentElement
      rw [List.take_succ_cons]
      refine List.pairwise_cons.mpr ⟨?_, hih⟩
      intro y hy
      rcases List.mem_cons.mp hy with hy | hy
      · rw [hy]; exact hR
      · exact htrans _ _ _ hR ((List.pairwise_cons.mp hih).1 y hy)
    simp only [runExtent]
    cases isDescending with
    | true =>
      simp only [if_true] at key ⊢
      by_cases hc : comparefn currentElement previousElement ≥ 0
      · rw [if_pos hc]; simp
      · rw [if_neg hc]; exact key (by omega)
    | false =>
      simp only [Bool.false_eq_true, if_false] at key ⊢
      by_cases hc : comparefn currentElement previousElement < 0
      · rw [if_pos hc]; simp
      · rw [if_neg hc]; exact key hc

theorem countAndMakeRun_pairwise {α : Type} (comparefn : α → α → Int) (le : α → α → Prop)
    (htrans : ∀ a b c, le a b → le b c → le a c)
    (hneg : ∀ x y, comparefn x y < 0 → le x y)
    (hnonneg : ∀ x y, ¬ comparefn x y < 0 → le y x) (xs : List α) :
    ((countAndMakeRun comparefn xs).1.take (countAndMakeRun comparefn xs).2).Pairwise le ∧
      (countAndMakeRun comparefn xs).1.drop (countAndMakeRun comparefn xs).2 =
        xs.drop (countAndMakeRun comparefn xs).2 ∧
      ((countAndMakeRun comparefn xs).1.take (countAndMakeRun comparefn xs).2).Perm
        (xs.take (countAndMakeRun comparefn xs).2) := by
  match xs with
  | [] => simp [countAndMakeRun]
  | [_] => simp [countAndMakeRun]
  | elementHigh :: elementLow :: rest =>
    have hle := runExtent_le comparefn (decide (comparefn elementLow elementHigh < 0)) rest
      elementLow
    simp only [countAndMakeRun]
    have htake : ∀ n, (elementHigh :: elementLow :: rest).take (2 + n) =
        elementHigh :: elementLow :: rest.take n := by
      intro n
      rw [Nat.add_comm 2 n]; rfl
    by_cases hd : comparefn elementLow elementHigh < 0
    · simp only [hd, decide_True, if_true] at hle ⊢
      have hlen : ((elementHigh :: elementLow :: rest).take
          (2 + runExtent comparefn true elementLow rest)).reverse.length =
          2 + runExtent comparefn true elementLow rest := by
        rw [List.length_reverse, List.length_take, List.length_cons, List.length_cons]
        omega
      rw [List.take_left' hlen, List.drop_left' hlen]
      refine ⟨?_, rfl, List.reverse_perm _⟩
      rw [List.pairwise_reverse, htake]
      have hrun := runExtent_pairwise comparefn true (fun a b => le b a)
        (fun a b c hab hbc => htrans _ _ _ hbc hab)
        (fun cur prev hc => hneg _ _ (by simpa using hc)) rest elementLow
      refine List.pairwise_cons.mpr ⟨?_, hrun⟩
      intro y hy
      rcases List.mem_cons.mp hy with hy | hy
      · rw [hy]; exact hneg _ _ hd
      · exact htrans _ _ _ ((List.pairwise_cons.mp hrun).1 y hy) (hneg _ _ hd)
    · simp only [hd, decide_False, Bool.false_eq_true, if_false] at hle ⊢
      refine ⟨?_, trivial, List.Perm.refl _⟩
      rw [htake]
      have hrun := runExtent_pairwise comparefn false le htrans
        (fun cur prev hc => hnonneg _ _ (by simpa using hc)) rest elementLow
      refine List.pairwise_cons.mpr ⟨?_, hrun⟩
      intro y hy
      rcases List.mem_cons.mp hy with hy | hy
      · rw [hy]; exact hnonneg _ _ hd
      · exact htrans _ _ _ (hnonneg _ _ hd) ((List.pairwise_cons.mp hrun).1 y hy)

theorem sortV8_pairwise {α : Type} (comparefn : α → α → Int) (le : α → α → Prop)
    (htrans : ∀ a b c, le a b → le b c → le a c)
    (hneg : ∀ x y, comparefn x y < 0 → le x y)
    (hnonneg : ∀ x y, ¬ comparefn x y < 0 → le y x) (xs : List α) :
    (sortV8 comparefn xs).Pairwise le := by
  unfold sortV8
  split
  · rename_i h
    match xs, h with
    | [], _ => exact List.Pairwise.nil
    | [x], _ => exact List.pairwise_singleton _ _
    | _ :: _ :: _, h => exact absurd h (by simp)
  · exact binaryInsertionSort_pairwise comparefn le htrans hneg hnonneg _ _
      (countAndMakeRun_pairwise comparefn le htrans hneg hnonneg xs).1

theorem insertBack_pairwise {α : Type} (comparefn : α → α → Int) (le : α → α → Prop)
    (htrans : ∀ a b c, le a b → le b c → le a c)
    (hnonpos : ∀ x y, comparefn x y ≤ 0 → le x y)
    (hpos : ∀ x y, ¬ comparefn x y ≤ 0 → le y x)
    (item : α) (sortedRev : List α) (hsorted : sortedRev.Pairwise (fun a b => le b a)) :
    (insertBack comparefn item sortedRev).Pairwise (fun a b => le b a) := by
  induction sortedRev with
  | nil => simp [insertBack]
  | cons swap more ih =>
    obtain ⟨hhead, htail⟩ := List.pairwise_cons.mp hsorted
    rw [insertBack]
    split
    · rename_i hc
      refine List.pairwise_cons.mpr ⟨?_, hsorted⟩
      intro y hy
      rcases List.mem_cons.mp hy with hy | hy
      · rw [hy]; exact hnonpos _ _ hc
      · exact htrans _ _ _ (hhead y hy) (hnonpos _ _ hc)
    · rename_i hc
      refine List.pairwise_cons.mpr ⟨?_, ih htail⟩
      intro y hy
      rcases List.mem_cons.mp ((insertBack_perm comparefn item more).mem_iff.mp hy) with hy | hy
      · rw [hy]; exact hpos _ _ hc
      · exact hhead y hy

theorem insertionSort_pairwise {α : Type} (comparefn : α → α → Int) (le : α → α → Prop)
    (htrans : ∀ a b c, le a b → le b c → le a c)
    (hnonpos : ∀ x y, comparefn x y ≤ 0 → le x y)
    (hpos : ∀ x y, ¬ comparefn x y ≤ 0 → le y x) (xs : List α) :
    (insertionSort comparefn xs).Pairwise le := by
  unfold insertionSort
  rw [List.pairwise_reverse]
  have key : ∀ (ys acc : List α), acc.Pairwise (fun a b => le b a) →
      (ys.foldl (fun sortedRev item => insertBack comparefn item sortedRev) acc).Pairwise
        (fun a b => le b a) := by
    intro ys
    induction ys with
    | nil => intro acc h; exact h
    | cons y ys ih =>
      intro acc h
      rw [List.foldl_cons]
      exact ih _ (insertBack_pairwise comparefn le htrans hnonpos hpos y acc h)
  exact key xs [] List.Pairwise.nil

end JS

/-! ### Sorting the analysis list (C3, C4) -/

namespace HomePage

theorem compareFn_values (field : Field) (sortDirection : SortDirection) (a b : Analysis) :
    compareFn field sortDirection a b = 1 ∨ compareFn field sortDirection a b = -1 := by
  unfold compareFn
  cases sortDirection <;> cases fieldGt field a b <;> simp

theorem compareFn_asc_neg_iff (field : Field) (a b : Analysis) :
    compareFn field .asc a b < 0 ↔ fieldGt field a b = false := by
  unfold compareFn
  cases fieldGt field a b <;> simp

theorem compareFn_desc_neg_iff (field : Field) (a b : Analysis) :
    compareFn field .desc a b < 0 ↔ fieldGt field a b = true := by
  unfold compareFn
  cases fieldGt field a b <;> simp

theorem arraySort_asc_pairwise (engine : JS.Engine) (field : Field) (xs : List Analysis) :
    (JS.arraySort engine (compareFn field .asc) xs).Pairwise (fun a b => fieldLe field a b) := by
  have hneg : ∀ x y, compareFn field .asc x y < 0 → fieldLe field x y := fun x y h =>
    (fieldGt_false_iff field x y).mp ((compareFn_asc_neg_iff field x y).mp h)
  have hnonneg : ∀ x y, ¬ compareFn field .asc x y < 0 → fieldLe field y x := fun x y h =>
    fieldLe_of_fieldGt field x y (by simpa [compareFn_asc_neg_iff] using h)
  have hle : ∀ x y, compareFn field .asc x y ≤ 0 ↔ compareFn field .asc x y < 0 := by
    intro x y
    rcases compareFn_values field .asc x y with h | h <;> rw [h] <;> decide
  cases engine with
  | v8 => exact JS.sortV8_pairwise _ _ (fieldLe_trans field) hneg hnonneg xs
  | spiderMonkey =>
    exact JS.insertionSort_pairwise _ _ (fieldLe_trans field)
      (fun x y h => hneg x y ((hle x y).mp h))
      (fun x y h => hnonneg x y (fun h' => h ((hle x y).mpr h'))) xs

theorem arraySort_desc_pairwise (engine : JS.Engine) (field : Field) (xs : List Analysis) :
    (JS.arraySort engine (compareFn field .desc) xs).Pairwise (fun a b => fieldLe field b a) := by
  have hneg : ∀ x y, compareFn field .desc x y < 0 → fieldLe field y x := fun x y h =>
    fieldLe_of_fieldGt field x y ((compareFn_desc_neg_iff field x y).mp h)
  have hnonneg : ∀ x y, ¬ compareFn field .desc x y < 0 → fieldLe field x y := fun x y h =>
    (fieldGt_false_iff field x y).mp (by simpa [compareFn_desc_neg_iff] using h)
  have hle : ∀ x y, compareFn field .desc x y ≤ 0 ↔ compareFn field .desc x y < 0 := by
    intro x y
    rcases compareFn_values field .desc x y with h | h <;> rw [h] <;> decide
  have htrans : ∀ a b c : Analysis, fieldLe field b a → fieldLe field c b → fieldLe field c a :=
    fun a b c hab hbc => fieldLe_trans field c b a hbc hab
  cases engine with
  | v8 =>
    exact JS.sortV8_pairwise _ (fun a b => fieldLe field b a) htrans hneg hnonneg xs
  | spiderMonkey =>
    exact JS.insertionSort_pairwise _ (fun a b => fieldLe field b a) htrans
      (fun x y h => hneg x y ((hle x y).mp h))
      (fun x y h => hnonneg x y (fun h' => h ((hle x y).mpr h'))) xs

/-- C3 fails on the page's own data. The records 1, 3 and 6 share the sucursal
"504" and the records 2, 4 and 5 share "514". Sorting by sucursal in direction
'asc' under V8 returns them as 6, 3, 1 and 5, 4, 2, each group reversed; under
the linear insertion sort the direction 'desc' reverses each group instead.
The filtered input holds the records in the order 1 to 6. -/
theorem sort_reverses_equal_values :
    (filtered analysisData "").map Analysis.id = [1, 2, 3, 4, 5, 6] ∧
      (filteredAndSortedData .v8 analysisData "" (some .sucursal) .asc).map Analysis.id =
        [6, 3, 1, 5, 4, 2] ∧
      (filteredAndSortedData .spiderMonkey analysisData "" (some .sucursal) .desc).map
        Analysis.id = [5, 4, 2, 6, 3, 1] := by
  decide

/-- C4: for every list of analysis records, every search term and every set
sort field (and for every case folding and both sort algorithms of the engine),
the output of filteredAndSortedData is a permutation of the filtered records
whose sort-field values are non-decreasing for 'asc' and non-increasing for
'desc' in the order of the raw field values: the numeric order on `id`, the
lexicographic order of the UTF-16 code units on the string fields. The
comparator returns 1 or -1 and never 0. The value without the case-folding
parameter is this one at the case folding of ASCII strings. -/
theorem filteredAndSortedData_sorted (toLowerCase : String → String) (engine : JS.Engine)
    (data : List Analysis) (searchTerm : String) (field : Field) :
    ((filteredAndSortedDataWith toLowerCase engine data searchTerm (some field) .asc).Perm
        (filteredWith toLowerCase data searchTerm) ∧
      (filteredAndSortedDataWith toLowerCase engine data searchTerm (some field) .asc).Pairwise
        (fun a b => fieldLe field a b)) ∧
    ((filteredAndSortedDataWith toLowerCase engine data searchTerm (some field) .desc).Perm
        (filteredWith toLowerCase data searchTerm) ∧
      (filteredAndSortedDataWith toLowerCase engine data searchTerm (some field) .desc).Pairwise
        (fun a b => fieldLe field b a)) ∧
    (∀ (sortDirection : SortDirection) (a b : Analysis),
      compareFn field sortDirection a b ≠ 0) ∧
    (∀ (sortField : Option Field) (sortDirection : SortDirection),
      filteredAndSortedData engine data searchTerm sortField sortDirection =
        filteredAndSortedDataWith JS.toLowerCase engine data searchTerm sortField
          sortDirection) := by
  refine ⟨⟨JS.arraySort_perm engine _ _, arraySort_asc_pairwise engine field _⟩,
    ⟨JS.arraySort_perm engine _ _, arraySort_desc_pairwise engine field _⟩, ?_,
    fun _ _ => rfl⟩
  intro sortDirection a b
  rcases compareFn_values field sortDirection a b with h | h <;> rw [h] <;> decide

end HomePage

/-! ### Further properties of the filters and of the sample data -/

namespace JS

theorem includesChars_nil (s : List Char) : includesChars s [] = true := by
  cases s <;> simp [includesChars]

theorem toLower_of_not_upper (c : Char) (h : ¬ (65 ≤ c.toNat ∧ c.toNat ≤ 90)) :
    Char.toLower c = c := by
  unfold Char.toLower
  simp only [ge_iff_le]
  rw [if_neg h]

theorem toLower_isAlpha_of_upper (c : Char) (h : 65 ≤ c.toNat ∧ c.toNat ≤ 90) :
    (Char.toLower c).isAlpha = true := by
  have hc : c = Char.ofNat c.toNat := (Char.ofNat_toNat c).symm
  obtain ⟨h1, h2⟩ := h
  generalize c.toNat = n at hc h1 h2
  subst hc
  interval_cases n <;> decide

theorem not_upper_of_not_isAlpha (c : Char) (h : c.isAlpha = false) :
    ¬ (65 ≤ c.toNat ∧ c.toNat ≤ 90) := by
  intro hu
  have : c.isUpper = true := by
    unfold Char.isUpper
    have h1 : c.val.toNat = c.toNat := rfl
    simp only [ge_iff_le, Bool.and_eq_true, decide_eq_true_eq, UInt32.le_def, Fin.le_def]
    exact ⟨hu.1, hu.2⟩
  unfold Char.isAlpha at h
  rw [this] at h
  exact absurd h (by simp)

theorem map_toLower_eq_self (u : List Char) (h : ∀ c ∈ u, c.isAlpha = false) :
    u.map Char.toLower = u := by
  induction u with
  | nil => rfl
  | cons c u ih =>
    rw [List.map_cons, toLower_of_not_upper c (not_upper_of_not_isAlpha c (h c (by simp))),
      ih (fun d hd => h d (List.mem_cons_of_mem _ hd))]

theorem eq_of_map_toLower_eq (t u : List Char) (hu : ∀ c ∈ u, c.isAlpha = false)
    (h : t.map Char.toLower = u) : t = u := by
  induction t generalizing u with
  | nil => simpa using h
  | cons c t ih =>
    cases u with
    | nil => simp at h
    | cons d u =>
      rw [List.map_cons, List.cons.injEq] at h
      have hd : d.isAlpha = false := hu d (by simp)
      have hc : ¬ (65 ≤ c.toNat ∧ c.toNat ≤ 90) := by
        intro hup
        have := toLower_isAlpha_of_upper c hup
        rw [h.1, hd] at this
        exact absurd this (by decide)
      rw [toLower_of_not_upper c hc] at h
      rw [h.1, ih u (fun e he => hu e (List.mem_cons_of_mem _ he)) h.2]

/-- On a string without letters the case-insensitive and the exact substring
tests agree. -/
theorem caseInsensitive_iff_exact (t s : String) (hs : ∀ c ∈ s.data, c.isAlpha = false) :
    CaseInsensitiveSubstring t s ↔ ExactSubstring t s := by
  constructor
  · rintro ⟨u, hu, heq⟩
    have hmem : ∀ c ∈ u, c.isAlpha = false := fun c hc => hs c (hu.subset hc)
    rw [map_toLower_eq_self u hmem] at heq
    have := eq_of_map_toLower_eq t.data u hmem heq.symm
    unfold ExactSubstring
    rw [this]
    exact hu
  · intro h
    exact ⟨t.data, h, rfl⟩

end JS

namespace HomePage

/-- The analysis-list filter on records whose sucursal is an ASCII string
without letters, as in all six records of the page, for an ASCII search term and
every case folding that agrees with the ASCII one on ASCII strings: a record is
kept if and only if the search term is a case-insensitive substring of its name,
createdBy or sucursal field. -/
theorem filtered_keeps_iff_of_letterless (toLowerCase : String → String)
    (hfold : JS.FoldsAscii toLowerCase) (data : List Analysis) (searchTerm : String)
    (hterm : JS.IsAscii searchTerm)
    (hdata : ∀ a ∈ data, JS.IsAscii a.sucursal ∧ ∀ c ∈ a.sucursal.data, c.isAlpha = false) :
    ∀ a ∈ data, (a ∈ filteredWith toLowerCase data searchTerm ↔
      (JS.CaseInsensitiveSubstringWith toLowerCase searchTerm a.name ∨
        JS.CaseInsensitiveSubstringWith toLowerCase searchTerm a.createdBy ∨
        JS.CaseInsensitiveSubstringWith toLowerCase searchTerm a.sucursal)) := by
  intro a ha
  have hsuc : JS.CaseInsensitiveSubstringWith toLowerCase searchTerm a.sucursal ↔
      JS.ExactSubstring searchTerm a.sucursal := by
    rw [← JS.includes_iff_caseInsensitiveWith, hfold _ hterm, hfold _ (hdata a ha).1,
      JS.includes_lower_iff]
    exact JS.caseInsensitive_iff_exact searchTerm a.sucursal (hdata a ha).2
  unfold filteredWith
  rw [List.mem_filter, hsuc]
  simp only [matchesSearchWith, Bool.or_eq_true, JS.includes_iff_caseInsensitiveWith, or_assoc,
    ha, true_and]
  rw [JS.includes_iff_exact]

/-- The hypotheses hold of the page's own data, for the search term "ROCIO" and
the case folding of ASCII strings. -/
theorem filtered_keeps_iff_of_letterless_witness :
    JS.FoldsAscii JS.toLowerCase ∧ JS.IsAscii "ROCIO" ∧
      (∀ a ∈ analysisData,
        JS.IsAscii a.sucursal ∧ ∀ c ∈ a.sucursal.data, c.isAlpha = false) ∧
      ∀ a ∈ analysisData, (a ∈ filteredWith JS.toLowerCase analysisData "ROCIO" ↔
        (JS.CaseInsensitiveSubstringWith JS.toLowerCase "ROCIO" a.name ∨
          JS.CaseInsensitiveSubstringWith JS.toLowerCase "ROCIO" a.createdBy ∨
          JS.CaseInsensitiveSubstringWith JS.toLowerCase "ROCIO" a.sucursal)) :=
  ⟨JS.foldsAscii_toLowerCase, by unfold JS.IsAscii; decide, by unfold JS.IsAscii; decide,
    filtered_keeps_iff_of_letterless JS.toLowerCase JS.foldsAscii_toLowerCase analysisData
      "ROCIO" (by unfold JS.IsAscii; decide) (by unfold JS.IsAscii; decide)⟩

/-- An empty search term keeps every record, in the analysis list (for every
case folding, since the sucursal test succeeds) and in the user table (for every
case folding that agrees with the ASCII one on ASCII strings). -/
theorem empty_search_keeps_all (data : List Analysis) (users : List AnalysisDetailPage.User) :
    (∀ toLowerCase : String → String, filteredWith toLowerCase data "" = data) ∧
      filtered data "" = data ∧
      AnalysisDetailPage.filteredUsers users "" = users ∧
      (∀ toLowerCase : String → String, JS.FoldsAscii toLowerCase →
        AnalysisDetailPage.filteredUsersWith toLowerCase users "" = users) := by
  have h : ∀ s : String, JS.includes s (JS.toLowerCase "") = true := fun s =>
    JS.includesChars_nil _
  have h2 : ∀ s : String, JS.includes s "" = true := fun s => JS.includesChars_nil _
  have hempty : JS.IsAscii "" := by unfold JS.IsAscii; decide
  have hall : ∀ toLowerCase : String → String, filteredWith toLowerCase data "" = data := by
    intro toLowerCase
    unfold filteredWith
    rw [List.filter_eq_self]
    intro a _
    simp [matchesSearchWith, h2]
  refine ⟨hall, hall JS.toLowerCase, ?_, ?_⟩
  · unfold AnalysisDetailPage.filteredUsers
    rw [List.filter_eq_self]
    intro a _
    simp [AnalysisDetailPage.matchesSearch, AnalysisDetailPage.matchesSearchWith, h]
  · intro toLowerCase hfold
    unfold AnalysisDetailPage.filteredUsersWith
    rw [List.filter_eq_self]
    intro a _
    simp [AnalysisDetailPage.matchesSearchWith, hfold _ hempty, h]

/-- The six sample analyses with no filter and no sort: two pages, the first
shows the records 1 to 4 and the second the records 5 and 6. -/
theorem sample_pages (engine : JS.Engine) :
    totalPages (filteredAndSortedData engine analysisData "" none .asc) = 2 ∧
      (paginatedData (filteredAndSortedData engine analysisData "" none .asc) 1).map
        Analysis.id = [1, 2, 3, 4] ∧
      (paginatedData (filteredAndSortedData engine analysisData "" none .asc) 2).map
        Analysis.id = [5, 6] := by
  cases engine <;> decide

end HomePage

/-! ### The extension test of the file input (C11, C12) -/

namespace JS

theorem splitChars_ne_nil (separator : Char) (l : List Char) : splitChars separator l ≠ [] := by
  cases l with
  | nil => simp [splitChars]
  | cons c cs =>
    rw [splitChars]
    split
    · simp
    · split <;> simp

theorem split_ne_nil (s : String) (separator : Char) : split s separator ≠ [] := by
  unfold split
  simpa using splitChars_ne_nil separator s.data

theorem splitChars_of_not_mem (separator : Char) (l : List Char) (h : separator ∉ l) :
    splitChars separator l = [l] := by
  induction l with
  | nil => rfl
  | cons c cs ih =>
    have hc : c ≠ separator := fun hc => h (by simp [hc])
    have hcs : separator ∉ cs := fun hm => h (List.mem_cons_of_mem _ hm)
    rw [splitChars, if_neg hc, ih hcs]

theorem splitChars_append_cons (separator : Char) (a b : List Char) :
    splitChars separator (a ++ separator :: b) =
      splitChars separator a ++ splitChars separator b := by
  induction a with
  | nil => simp [splitChars]
  | cons c cs ih =>
    rw [List.cons_append, splitChars, splitChars, ih]
    by_cases hc : c = separator
    · rw [if_pos hc, if_pos hc]; rfl
    · rw [if_neg hc, if_neg hc]
      cases hsplit : splitChars separator cs with
      | nil => exact absurd hsplit (splitChars_ne_nil separator cs)
      | cons piece pieces => rfl

theorem getLastD_split_of_dot (name : String) (stem ext : List Char)
    (hname : name.data = stem ++ '.' :: ext) (hext : '.' ∉ ext) :
    (split name '.').getLastD "" = String.mk ext := by
  unfold split
  rw [hname, splitChars_append_cons, splitChars_of_not_mem '.' ext hext, List.map_append,
    List.map_singleton, List.getLastD_concat]

theorem getLastD_split_of_no_dot (name : String) (h : '.' ∉ name.data) :
    (split name '.').getLastD "" = name := by
  unfold split
  rw [splitChars_of_not_mem '.' name.data h]
  rfl

/-- A list that contains the separator splits at its last occurrence. -/
theorem exists_last_separator (separator : Char) (l : List Char) (h : separator ∈ l) :
    ∃ stem ext : List Char, l = stem ++ separator :: ext ∧ separator ∉ ext := by
  induction l with
  | nil => simp at h
  | cons c cs ih =>
    by_cases hcs : separator ∈ cs
    · obtain ⟨stem, ext, hl, hext⟩ := ih hcs
      exact ⟨c :: stem, ext, by rw [hl]; rfl, hext⟩
    · rcases List.mem_cons.mp h with hc | hc
      · exact ⟨[], cs, by rw [hc]; rfl, hcs⟩
      · exact absurd hc hcs

theorem toLowerCase_eq_iff (s t : String) :
    toLowerCase s = t ↔ s.data.map Char.toLower = t.data := by
  unfold toLowerCase
  constructor
  · intro h; rw [← h]
  · intro h; rw [h]

end JS

namespace NewAnalysisPage

theorem fileExtension_of_dot (name : String) (stem ext : List Char)
    (hname : name.data = stem ++ '.' :: ext) (hext : '.' ∉ ext) (t : String) :
    fileExtension name = t ↔ ext.map Char.toLower = t.data := by
  unfold fileExtension
  rw [JS.getLastD_split_of_dot name stem ext hname hext, JS.toLowerCase_eq_iff]

theorem fileExtension_of_no_dot (name : String) (h : '.' ∉ name.data) (t : String) :
    fileExtension name = t ↔ name.data.map Char.toLower = t.data := by
  unfold fileExtension
  rw [JS.getLastD_split_of_no_dot name h, JS.toLowerCase_eq_iff]

theorem hasExtension_unique (name : String) (ext ext' : List Char)
    (h : HasExtension name ext) (h' : HasExtension name ext') : ext = ext' := by
  obtain ⟨stem, hname, hext⟩ := h
  obtain ⟨stem', hname', hext'⟩ := h'
  have e1 := JS.getLastD_split_of_dot name stem ext hname hext
  have e2 := JS.getLastD_split_of_dot name stem' ext' hname' hext'
  rw [e1] at e2
  exact congrArg String.data e2

theorem not_validName_of_no_dot (name : String) (h : '.' ∉ name.data) : ¬ ValidName name := by
  rintro ⟨ext, ⟨stem, hname, _⟩, _⟩
  exact h (by rw [hname]; simp)

/-- The test of `handleFileChange` in words: it passes if and only if the name
is valid, or the name has no '.' and is itself 'csv' or 'xlsx' up to case. -/
theorem extension_test_iff (name : String) :
    (fileExtension name = "csv" ∨ fileExtension name = "xlsx") ↔
      (ValidName name ∨
        ('.' ∉ name.data ∧
          (name.data.map Char.toLower = "csv".data ∨
            name.data.map Char.toLower = "xlsx".data))) := by
  by_cases hdot : '.' ∈ name.data
  · obtain ⟨stem, ext, hname, hext⟩ := JS.exists_last_separator '.' name.data hdot
    rw [fileExtension_of_dot name stem ext hname hext, fileExtension_of_dot name stem ext hname hext]
    constructor
    · intro h
      exact Or.inl ⟨ext, ⟨stem, hname, hext⟩, h⟩
    · rintro (⟨ext', hhas, h⟩ | ⟨hno, _⟩)
      · rw [hasExtension_unique name ext ext' ⟨stem, hname, hext⟩ hhas]
        exact h
      · exact absurd hdot hno
  · rw [fileExtension_of_no_dot name hdot, fileExtension_of_no_dot name hdot]
    constructor
    · intro h
      exact Or.inr ⟨hdot, h⟩
    · rintro (h | ⟨_, h⟩)
      · exact absurd h (not_validName_of_no_dot name hdot)
      · exact h

/-- The handler `handleFileChange` on a file whose name passes the test, and on
one whose name does not. -/
theorem handleFileChange_accepts_iff (s : State) (f : File) :
    ((handleFileChange s (some f)).file = some f ↔
      (fileExtension f.name = "csv" ∨ fileExtension f.name = "xlsx")) ∧
    ((handleFileChange s (some f)).file = none ↔
      ¬ (fileExtension f.name = "csv" ∨ fileExtension f.name = "xlsx")) := by
  unfold handleFileChange
  by_cases h : fileExtension f.name = "csv" ∨ fileExtension f.name = "xlsx"
  · simp only [h, if_true, simulateUpload]
    simp
  · simp only [h, if_false]
    simp

/-- C11 fails on the file name "csv": the name has no '.', hence no extension,
and is not valid, yet handleFileChange accepts it: from the initial state it
stores the file and its name, leaves the error empty and starts the simulated
upload with progress 0 and a running interval. -/
theorem handleFileChange_accepts_dotless_name :
    '.' ∉ "csv".data ∧ ¬ ValidName "csv" ∧
      handleFileChange State.initial (some { name := "csv" }) =
        { file := some { name := "csv" }, fileName := "csv", uploadProgress := 0,
          isUploading := true, fileError := "", intervals := [1], nextInterval := 2 } := by
  refine ⟨by decide, not_validName_of_no_dot "csv" (by decide), by decide⟩

/-- The behaviour behind C11: handleFileChange accepts a file (stores it,
clears the error and starts the upload with progress 0 on a new interval) if
and only if its name has an extension equal to 'csv' or 'xlsx' up to case, or
has no '.' and is itself 'csv' or 'xlsx' up to case; it rejects every other
name. For a name that contains a '.' this is the validation policy. -/
theorem handleFileChange_accepts (s : State) (f : File) :
    ((handleFileChange s (some f)).file = some f ↔
      (ValidName f.name ∨
        ('.' ∉ f.name.data ∧
          (f.name.data.map Char.toLower = "csv".data ∨
            f.name.data.map Char.toLower = "xlsx".data)))) ∧
    ((handleFileChange s (some f)).file = some f →
      handleFileChange s (some f) =
        { s with
          file := some f
          fileName := f.name
          fileError := ""
          isUploading := true
          uploadProgress := 0
          intervals := s.intervals ++ [s.nextInterval]
          nextInterval := s.nextInterval + 1 }) ∧
    ((handleFileChange s (some f)).file ≠ some f → (handleFileChange s (some f)).file = none) := by
  have hiff := handleFileChange_accepts_iff s f
  refine ⟨by rw [hiff.1, extension_test_iff], ?_, ?_⟩
  · intro h
    have ht := hiff.1.mp h
    unfold handleFileChange
    simp only [ht, if_true, simulateUpload]
  · intro h
    exact hiff.2.mpr (fun ht => h (hiff.1.mpr ht))

/-- The hypotheses of `handleFileChange_accepts` hold for "datos.XLSX" at the
initial state. -/
theorem handleFileChange_accepts_witness :
    (handleFileChange State.initial (some { name := "datos.XLSX" })).file =
        some { name := "datos.XLSX" } ∧
      (handleFileChange State.initial (some { name := "datos.XLSX" })).intervals = [1] :=
  ⟨by decide,
    by rw [(handleFileChange_accepts State.initial { name := "datos.XLSX" }).2.1 (by decide)]; rfl⟩

end NewAnalysisPage

/-! ### The simulated upload (C12, C13, C15, C16) -/

namespace NewAnalysisPage

theorem tick_of_lt (s : State) (t : Nat) (ht : t ∈ s.intervals) (hp : s.uploadProgress < 100) :
    tick s t = { s with uploadProgress := s.uploadProgress + 10 } := by
  unfold tick
  rw [if_pos ht, if_neg (by omega)]

theorem tick_of_ge (s : State) (t : Nat) (ht : t ∈ s.intervals) (hp : 100 ≤ s.uploadProgress) :
    tick s t =
      { s with intervals := s.intervals.erase t, isUploading := false, uploadProgress := 100 } := by
  unfold tick
  rw [if_pos ht, if_pos hp]

theorem tick_of_not_mem (s : State) (t : Nat) (ht : t ∉ s.intervals) : tick s t = s := by
  unfold tick
  rw [if_neg ht]

theorem reachable_ticks (s : State) (t : Nat) (n : Nat) (hs : Reachable s) :
    Reachable (ticks s t n) := by
  induction n with
  | zero => exact hs
  | succ n ih => exact Reachable.step (.tick t) ih

/-- The course of an upload whose interval is the only one running: ten ticks
of 10 units each, then the tick that ends it. -/
theorem ticks_of_single_interval (s : State) (t : Nat) (hint : s.intervals = [t])
    (hp : s.uploadProgress = 0) (n : Nat) :
    ticks s t n =
      if n ≤ 10 then { s with uploadProgress := 10 * n }
      else { s with uploadProgress := 100, isUploading := false, intervals := [] } := by
  induction n with
  | zero =>
    rw [ticks, if_pos (by omega)]
    cases s
    simp only [State.mk.injEq, true_and, and_true] at hp ⊢
    omega
  | succ n ih =>
    rw [ticks, ih]
    by_cases h10 : n + 1 ≤ 10
    · rw [if_pos (by omega), if_pos h10, tick_of_lt _ t (by simp [hint]) (by simp; omega)]
      simp only [State.mk.injEq, true_and, and_true]
      omega
    · by_cases h11 : n = 10
      · subst h11
        rw [if_pos (by omega), if_neg h10, tick_of_ge _ t (by simp [hint]) (by simp)]
        simp [hint]
      · rw [if_neg (by omega), if_neg h10, tick_of_not_mem _ t (by simp)]

/-- C12, as stated, fails: after the upload of "report.csv" has completed with
progress 100 (eleven ticks), a reachable state, submitting "report.txt" leaves
progress at 100, not 0. -/
theorem rejection_keeps_progress :
    Reachable (ticks (handleFileChange State.initial (some { name := "report.csv" })) 1 11) ∧
      (ticks (handleFileChange State.initial (some { name := "report.csv" })) 1 11).uploadProgress
        = 100 ∧
      ¬ ValidName "report.txt" ∧
      (handleFileChange
        (ticks (handleFileChange State.initial (some { name := "report.csv" })) 1 11)
        (some { name := "report.txt" })).uploadProgress = 100 := by
  refine ⟨reachable_ticks _ 1 11
      (Reachable.step (Event.fileChange (some { name := "report.csv" })) Reachable.initial),
    by decide, ?_, by decide⟩
  intro h
  have := (extension_test_iff "report.txt").mpr (Or.inl h)
  revert this
  decide

/-- C12, amended: for every upload state and every file name that the
extension test of handleFileChange turns down, such as "report.txt",
handleFileChange leaves a non-empty error message, no file and no file name,
and leaves progress, the uploading flag and the running intervals as they
were; progress equals 0 afterwards exactly when it was 0 before, as it is in
the initial state. -/
theorem handleFileChange_rejects (s : State) (f : File)
    (h : ¬ (fileExtension f.name = "csv" ∨ fileExtension f.name = "xlsx")) :
    (handleFileChange s (some f)).fileError ≠ "" ∧
      (handleFileChange s (some f)).file = none ∧
      (handleFileChange s (some f)).fileName = "" ∧
      (handleFileChange s (some f)).uploadProgress = s.uploadProgress ∧
      (handleFileChange s (some f)).isUploading = s.isUploading ∧
      (handleFileChange s (some f)).intervals = s.intervals ∧
      ((handleFileChange s (some f)).uploadProgress = 0 ↔ s.uploadProgress = 0) := by
  have hs : handleFileChange s (some f) =
      { s with
        fileError := "Error: Solo se permiten archivos .csv o .xlsx"
        file := none
        fileName := "" } := by
    unfold handleFileChange
    simp only [h, if_false]
  rw [hs]
  have hmsg : "Error: Solo se permiten archivos .csv o .xlsx" ≠ "" := by decide
  exact ⟨hmsg, rfl, rfl, rfl, rfl, rfl, Iff.rfl⟩

/-- C12 for "report.txt" at the initial state: the name fails the test, and
progress is 0 after the rejection. -/
theorem handleFileChange_rejects_witness :
    ¬ (fileExtension "report.txt" = "csv" ∨ fileExtension "report.txt" = "xlsx") ∧
      (handleFileChange State.initial (some { name := "report.txt" })).fileError ≠ "" ∧
      (handleFileChange State.initial (some { name := "report.txt" })).uploadProgress = 0 :=
  ⟨by decide,
    (handleFileChange_rejects State.initial { name := "report.txt" } (by decide)).1,
    (handleFileChange_rejects State.initial { name := "report.txt" } (by decide)).2.2.2.1⟩

/-- C13, as stated, fails: five ticks after "report.csv" was submitted from the
initial state, progress is 50 and the simulator is still uploading. -/
theorem five_ticks_reach_fifty :
    (ticks (handleFileChange State.initial (some { name := "report.csv" })) 1 5).uploadProgress
        = 50 ∧
      (ticks (handleFileChange State.initial (some { name := "report.csv" })) 1 5).isUploading
        = true := by
  decide

/-- C13, amended: from the initial upload state, submitting "report.csv" puts
the simulator in the uploading phase with progress 0 and one running interval;
progress is 100 after exactly ten ticks of that interval, and the simulator is
complete (no longer uploading, interval cleared) with progress 100 after
exactly eleven. -/
theorem report_csv_upload :
    (handleFileChange State.initial (some { name := "report.csv" })).isUploading = true ∧
      (handleFileChange State.initial (some { name := "report.csv" })).uploadProgress = 0 ∧
      (handleFileChange State.initial (some { name := "report.csv" })).intervals = [1] ∧
      (∀ n : Nat,
        (ticks (handleFileChange State.initial (some { name := "report.csv" })) 1
          n).uploadProgress = 100 ↔ 10 ≤ n) ∧
      (∀ n : Nat,
        (ticks (handleFileChange State.initial (some { name := "report.csv" })) 1
          n).isUploading = false ↔ 11 ≤ n) ∧
      (∀ n : Nat,
        (ticks (handleFileChange State.initial (some { name := "report.csv" })) 1
          n).intervals = [] ↔ 11 ≤ n) := by
  have hs : handleFileChange State.initial (some { name := "report.csv" }) =
      { file := some { name := "report.csv" }, fileName := "report.csv", uploadProgress := 0,
        isUploading := true, fileError := "", intervals := [1], nextInterval := 2 } := by
    decide
  rw [hs]
  refine ⟨rfl, rfl, rfl, fun n => ?_, fun n => ?_, fun n => ?_⟩ <;>
    rw [ticks_of_single_interval _ 1 rfl rfl n] <;>
    by_cases h : n ≤ 10 <;> simp [h] <;> omega

/-- C15, as stated, fails at n = 10: ten ticks after a single accepted
submission progress has reached 100, so 10 * n < 100 no longer holds, but the
simulator is still uploading and its interval still runs. -/
theorem tenth_tick_still_uploading :
    ¬ (10 * 10 < 100) ∧
      (ticks (handleFileChange State.initial (some { name := "report.csv" })) 1 10).uploadProgress
        = 100 ∧
      (ticks (handleFileChange State.initial (some { name := "report.csv" })) 1 10).isUploading
        = true ∧
      (ticks (handleFileChange State.initial (some { name := "report.csv" })) 1 10).intervals
        = [1] := by
  decide

/-- C15, amended: for a single accepted submission, made while no interval is
running, and no further submission, after n ticks of its interval progress
equals min(100, 10 * n); the simulator stops uploading, and clears the
interval, on the tick after the one at which progress reaches 100: it is still
uploading exactly while n ≤ 10. -/
theorem upload_progress_after_ticks (s : State) (f : File) (hidle : s.intervals = [])
    (hvalid : fileExtension f.name = "csv" ∨ fileExtension f.name = "xlsx") (n : Nat) :
    (ticks (handleFileChange s (some f)) s.nextInterval n).uploadProgress = min 100 (10 * n) ∧
      ((ticks (handleFileChange s (some f)) s.nextInterval n).isUploading = true ↔ n ≤ 10) ∧
      (s.nextInterval ∈ (ticks (handleFileChange s (some f)) s.nextInterval n).intervals ↔
        n ≤ 10) := by
  have hs : handleFileChange s (some f) =
      { s with
        file := some f
        fileName := f.name
        fileError := ""
        isUploading := true
        uploadProgress := 0
        intervals := [s.nextInterval]
        nextInterval := s.nextInterval + 1 } := by
    unfold handleFileChange
    simp only [hvalid, if_true, simulateUpload, hidle, List.nil_append]
  rw [hs, ticks_of_single_interval _ s.nextInterval rfl rfl n]
  by_cases h : n ≤ 10
  · simp only [h, if_true]
    refine ⟨by omega, by simp, by simp⟩
  · simp only [h, if_false]
    refine ⟨by omega, by simp, by simp⟩

/-- C15 for "report.csv" submitted at the initial state, after seven ticks. -/
theorem upload_progress_after_ticks_witness :
    State.initial.intervals = [] ∧
      (fileExtension "report.csv" = "csv" ∨ fileExtension "report.csv" = "xlsx") ∧
      (ticks (handleFileChange State.initial (some { name := "report.csv" }))
        State.initial.nextInterval 7).uploadProgress = min 100 (10 * 7) :=
  ⟨rfl, by decide,
    (upload_progress_after_ticks State.initial { name := "report.csv" } rfl (by decide) 7).1⟩

/-- C16, as stated, fails: "a.csv" is submitted from the initial state and
starts interval 1, then "b.csv" is submitted and starts interval 2 with
progress 0. Interval 1 still runs, and its tick raises progress from 0 to 10;
after ten ticks of interval 2 a tick of interval 1 clears the uploading
flag. -/
theorem stale_tick_changes_progress :
    (handleFileChange (handleFileChange State.initial (some { name := "a.csv" }))
        (some { name := "b.csv" })).intervals = [1, 2] ∧
      (handleFileChange (handleFileChange State.initial (some { name := "a.csv" }))
        (some { name := "b.csv" })).uploadProgress = 0 ∧
      (tick (handleFileChange (handleFileChange State.initial (some { name := "a.csv" }))
        (some { name := "b.csv" })) 1).uploadProgress = 10 ∧
      (ticks (handleFileChange (handleFileChange State.initial (some { name := "a.csv" }))
        (some { name := "b.csv" })) 2 10).isUploading = true ∧
      (tick (ticks (handleFileChange (handleFileChange State.initial (some { name := "a.csv" }))
        (some { name := "b.csv" })) 2 10) 1).isUploading = false := by
  decide

/-- C16, amended: a new valid submission does not cancel the interval of an
earlier submission. That interval keeps running after the new submission has
reset progress to 0, and its tick acts as the tick of the newest interval
does: it adds 10 to progress while progress is below 100; once progress has
reached 100 it sets progress to 100, clears the uploading flag and clears only
itself. -/
theorem earlier_interval_keeps_ticking (s : State) (f : File) (t : Nat)
    (hvalid : fileExtension f.name = "csv" ∨ fileExtension f.name = "xlsx")
    (ht : t ∈ s.intervals) :
    t ∈ (handleFileChange s (some f)).intervals ∧
      (handleFileChange s (some f)).uploadProgress = 0 ∧
      (tick (handleFileChange s (some f)) t).uploadProgress = 10 ∧
      (∀ s' : State, t ∈ s'.intervals →
        (tick s' t).uploadProgress =
            (if 100 ≤ s'.uploadProgress then 100 else s'.uploadProgress + 10) ∧
          (tick s' t).isUploading =
            (if 100 ≤ s'.uploadProgress then false else s'.isUploading) ∧
          (tick s' t).intervals =
            (if 100 ≤ s'.uploadProgress then s'.intervals.erase t else s'.intervals)) := by
  have hs : handleFileChange s (some f) =
      simulateUpload { s with file := some f, fileName := f.name, fileError := "" } := by
    unfold handleFileChange
    simp only [hvalid, if_true]
  have hmem : t ∈ (handleFileChange s (some f)).intervals := by
    rw [hs]
    simp [simulateUpload, ht]
  have hzero : (handleFileChange s (some f)).uploadProgress = 0 := by
    rw [hs]; rfl
  refine ⟨hmem, hzero, ?_, ?_⟩
  · rw [tick_of_lt _ t hmem (by omega)]
    simp [hzero]
  · intro s' ht'
    by_cases hp : 100 ≤ s'.uploadProgress
    · rw [tick_of_ge s' t ht' hp]
      simp [hp]
    · rw [tick_of_lt s' t ht' (by omega)]
      simp [hp]

/-- C16 for "b.csv" submitted while interval 1, started for "a.csv", runs. -/
theorem earlier_interval_keeps_ticking_witness :
    (fileExtension "b.csv" = "csv" ∨ fileExtension "b.csv" = "xlsx") ∧
      1 ∈ (handleFileChange State.initial (some { name := "a.csv" })).intervals ∧
      1 ∈ (handleFileChange (handleFileChange State.initial (some { name := "a.csv" }))
        (some { name := "b.csv" })).intervals :=
  ⟨by decide, by decide,
    (earlier_interval_keeps_ticking (handleFileChange State.initial (some { name := "a.csv" }))
      { name := "b.csv" } 1 (by decide) (by decide)).1⟩

end NewAnalysisPage

/-! ### Starting the analysis (C14) -/

namespace NewAnalysisPage

theorem reachable_uploadProgress (s : State) (hs : Reachable s) :
    s.uploadProgress ≤ 100 ∧ 10 ∣ s.uploadProgress := by
  induction hs with
  | initial => exact ⟨by decide, by decide⟩
  | @step s e _ ih =>
    cases e with
    | fileChange selectedFile =>
      cases selectedFile with
      | none => exact ih
      | some f =>
        simp only [step, handleFileChange]
        split
        · exact ⟨by simp [simulateUpload], by simp [simulateUpload]⟩
        · exact ih
    | tick t =>
      simp only [step, tick]
      split
      · split
        · exact ⟨by simp, by simp; decide⟩
        · obtain ⟨h1, k, hk⟩ := ih
          refine ⟨?_, ⟨k + 1, ?_⟩⟩
          · show s.uploadProgress + 10 ≤ 100
            omega
          · show s.uploadProgress + 10 = 10 * (k + 1)
            omega
      · exact ih
    | startAnalysis =>
      simp only [step, handleStartAnalysis]
      split
      · exact ih
      · split <;> exact ih

/-- C14: in every upload state handleStartAnalysis proceeds (navigates to the
analysis) if and only if a file is stored and progress is 100; it does not
proceed in the initial state. When it does not proceed it changes nothing but
the error message, which is one text when no file is stored and another when
the upload is incomplete. The start button is disabled in exactly the states
in which the handler does not proceed. -/
theorem handleStartAnalysis_proceeds_iff (s : State) (hs : Reachable s) :
    ((handleStartAnalysis s).2 = some "/analisis/1" ↔
        (s.file.isSome = true ∧ s.uploadProgress = 100)) ∧
      ((handleStartAnalysis s).2 = none ↔
        ¬ (s.file.isSome = true ∧ s.uploadProgress = 100)) ∧
      (handleStartAnalysis State.initial).2 = none ∧
      (s.file = none →
        handleStartAnalysis s =
          ({ s with fileError := "Debe seleccionar un archivo antes de comenzar" }, none)) ∧
      (s.file ≠ none → s.uploadProgress ≠ 100 →
        handleStartAnalysis s =
          ({ s with fileError := "Por favor espere a que se complete la carga del archivo" },
            none)) ∧
      "Debe seleccionar un archivo antes de comenzar" ≠
        "Por favor espere a que se complete la carga del archivo" ∧
      (startDisabled s = true ↔ (handleStartAnalysis s).2 = none) := by
  have hle := (reachable_uploadProgress s hs).1
  have hmsg : "Debe seleccionar un archivo antes de comenzar" ≠
      "Por favor espere a que se complete la carga del archivo" := by decide
  by_cases hfile : s.file = none
  · have hnone : s.file.isNone = true := by rw [hfile]; rfl
    have hsome : s.file.isSome = false := by rw [hfile]; rfl
    have h1 : handleStartAnalysis s =
        ({ s with fileError := "Debe seleccionar un archivo antes de comenzar" }, none) := by
      unfold handleStartAnalysis
      rw [if_pos hnone]
    refine ⟨?_, ?_, by decide, fun _ => h1, fun h => absurd hfile h, hmsg, ?_⟩
    · rw [h1]; simp [hsome]
    · rw [h1]; simp [hsome]
    · rw [h1]; simp [startDisabled, hnone]
  · have hnone : s.file.isNone = false := by
      cases h : s.file with
      | none => exact absurd h hfile
      | some f => rfl
    have hsome : s.file.isSome = true := by
      cases h : s.file with
      | none => exact absurd h hfile
      | some f => rfl
    by_cases hp : s.uploadProgress < 100
    · have h1 : handleStartAnalysis s =
          ({ s with fileError := "Por favor espere a que se complete la carga del archivo" },
            none) := by
        unfold handleStartAnalysis
        rw [if_neg (by simp [hnone]), if_pos hp]
      refine ⟨?_, ?_, by decide, fun h => absurd h hfile, fun _ _ => h1, hmsg, ?_⟩
      · rw [h1]; simp [hsome]; omega
      · rw [h1]; simp [hsome]; omega
      · rw [h1]; simp [startDisabled, hnone, hp]
    · have h1 : handleStartAnalysis s = (s, some "/analisis/1") := by
        unfold handleStartAnalysis
        rw [if_neg (by simp [hnone]), if_neg hp]
      have h100 : s.uploadProgress = 100 := by omega
      refine ⟨?_, ?_, by decide, fun h => absurd h hfile,
        fun _ h => absurd h100 h, hmsg, ?_⟩
      · rw [h1]; simp [hsome, h100]
      · rw [h1]; simp [hsome, h100]
      · rw [h1]; simp [startDisabled, hnone, hp]

/-- C14 at the initial state, which is reachable: no file is stored and the
handler does not proceed. -/
theorem handleStartAnalysis_proceeds_iff_witness :
    Reachable State.initial ∧
      ((handleStartAnalysis State.initial).2 = none ↔
        ¬ (State.initial.file.isSome = true ∧ State.initial.uploadProgress = 100)) :=
  ⟨Reachable.initial, (handleStartAnalysis_proceeds_iff State.initial Reachable.initial).2.1⟩

end NewAnalysisPage

/-! ### Writes to the feedback store and the other entries (C17) -/

namespace JS

theorem append_cons_inj_of_not_mem (c : Char) (l₁ l₂ r₁ r₂ : List Char) (h₁ : c ∉ l₁)
    (h₂ : c ∉ l₂) (h : l₁ ++ c :: r₁ = l₂ ++ c :: r₂) : l₁ = l₂ ∧ r₁ = r₂ := by
  induction l₁ generalizing l₂ with
  | nil =>
    cases l₂ with
    | nil => exact ⟨rfl, by simpa using h⟩
    | cons d l₂ =>
      rw [List.nil_append, List.cons_append, List.cons.injEq] at h
      exact absurd (by rw [h.1]; simp) h₂
  | cons a l₁ ih =>
    cases l₂ with
    | nil =>
      rw [List.nil_append, List.cons_append, List.cons.injEq] at h
      exact absurd (by rw [← h.1]; simp) h₁
    | cons d l₂ =>
      rw [List.cons_append, List.cons_append, List.cons.injEq] at h
      obtain ⟨e1, e2⟩ := ih l₂ (fun hm => h₁ (List.mem_cons_of_mem _ hm))
        (fun hm => h₂ (List.mem_cons_of_mem _ hm)) h.2
      exact ⟨by rw [h.1, e1], e2⟩

end JS

namespace AnalysisDetailPage

theorem feedbackKey_data (usuario rol : String) :
    (feedbackKey usuario rol).data = usuario.data ++ '-' :: rol.data := by
  unfold feedbackKey
  rw [String.data_append, String.data_append]
  simp

theorem feedbackKey_inj (usuario rol usuario' rol' : String) (hu : '-' ∉ usuario.data)
    (hu' : '-' ∉ usuario'.data) (h : feedbackKey usuario rol = feedbackKey usuario' rol') :
    usuario = usuario' ∧ rol = rol' := by
  have hdata := congrArg String.data h
  rw [feedbackKey_data, feedbackKey_data] at hdata
  obtain ⟨e1, e2⟩ := JS.append_cons_inj_of_not_mem '-' _ _ _ _ hu hu' hdata
  exact ⟨String.ext e1, String.ext e2⟩

theorem storedChoice_handleFeedback_eq (feedback : JS.Obj (JS.Obj String))
    (usuario rol type value usuario' rol' type' : String) :
    storedChoice (handleFeedback feedback usuario rol type value) usuario' rol' type' =
      if feedbackKey usuario' rol' = feedbackKey usuario rol then
        (if type' = type then some value else storedChoice feedback usuario rol type')
      else storedChoice feedback usuario' rol' type' := by
  unfold storedChoice handleFeedback
  rw [JS.Obj.get_set]
  by_cases hk : feedbackKey usuario' rol' = feedbackKey usuario rol
  · rw [if_pos hk, if_pos hk, Option.getD_some, JS.Obj.get_set]
  · rw [if_neg hk, if_neg hk]

/-- The read `prev[key]` of `handleFeedback` never reaches `Object.prototype`:
it finds the own property of the store or `undefined`. -/
theorem read_feedbackKey {α : Type} (prev : JS.Obj α) (usuario rol : String) :
    prev.read (feedbackKey usuario rol) =
      match prev.get (feedbackKey usuario rol) with
      | some value => .own value
      | none => .undefined := by
  have hall : ∀ name ∈ JS.objectPrototypeNames, '-' ∉ name.data := by decide
  have hmem : '-' ∈ (feedbackKey usuario rol).data := by simp [feedbackKey]
  have hnot : feedbackKey usuario rol ∉ JS.objectPrototypeNames := fun h => hall _ h hmem
  have h1 : feedbackKey usuario rol ∉ JS.objectPrototypeMethods := fun h =>
    hnot (List.mem_cons_of_mem _ h)
  have h2 : feedbackKey usuario rol ≠ "__proto__" := fun h =>
    hnot (by rw [h]; exact List.mem_cons_self _ _)
  unfold JS.Obj.read
  cases prev.get (feedbackKey usuario rol) with
  | some value => rfl
  | none => simp only [if_neg h1, if_neg h2]

/-- C17, as stated, fails: the pairs ("a-b", "c") and ("a", "b-c") are distinct
but are filed under the same store key "a-b-c", so a write to the first changes
the stored choice of the second. -/
theorem feedbackKey_collision :
    (("a-b", "c") : String × String) ≠ ("a", "b-c") ∧
      feedbackKey "a-b" "c" = feedbackKey "a" "b-c" ∧
      storedChoice [] "a" "b-c" "feedback" = none ∧
      storedChoice (handleFeedback [] "a-b" "c" "feedback" "si") "a" "b-c" "feedback" =
        some "si" := by
  decide

/-- C17, amended: for every feedback store and every two distinct (usuario,
rol) pairs p and q whose usuario contains no '-', the store keys of p and q are
distinct and a handleFeedback write to p leaves every stored choice of q
unchanged; and for every pair p of arbitrary strings, a write to one pair kind
of p leaves every other pair kind of p unchanged. -/
theorem handleFeedback_frame (feedback : JS.Obj (JS.Obj String))
    (usuario rol usuario' rol' type type' value : String) :
    (('-' ∉ usuario.data ∧ '-' ∉ usuario'.data ∧ (usuario, rol) ≠ (usuario', rol')) →
      (feedbackKey usuario rol ≠ feedbackKey usuario' rol' ∧
        storedChoice (handleFeedback feedback usuario rol type value) usuario' rol' type' =
          storedChoice feedback usuario' rol' type')) ∧
    (type' ≠ type →
      storedChoice (handleFeedback feedback usuario rol type value) usuario rol type' =
        storedChoice feedback usuario rol type') := by
  refine ⟨fun ⟨hu, hu', hne⟩ => ?_, fun ht => ?_⟩
  · have hkey : feedbackKey usuario rol ≠ feedbackKey usuario' rol' := by
      intro h
      obtain ⟨e1, e2⟩ := feedbackKey_inj usuario rol usuario' rol' hu hu' h
      exact hne (by rw [e1, e2])
    refine ⟨hkey, ?_⟩
    rw [storedChoice_handleFeedback_eq, if_neg (fun h => hkey h.symm)]
  · rw [storedChoice_handleFeedback_eq, if_pos rfl, if_neg ht]

/-- C17 for two role recommendations of the user KPPIRES in the sample data: a
write to the first leaves the 'save' choice of the second as it was; and for
the pair ("a-b", "c"), whose usuario has a '-', a write of the kind 'feedback'
leaves its own 'save' choice as it was. -/
theorem handleFeedback_frame_witness :
    ('-' ∉ "KPPIRES".data ∧ '-' ∉ "KPPIRES".data ∧
        (("KPPIRES", "ZDX_DMPSST0-008-01-001:0514") : String × String) ≠
          ("KPPIRES", "ZD_ALCOPCO-001-01-001:0514")) ∧
      storedChoice
          (handleFeedback [] "KPPIRES" "ZDX_DMPSST0-008-01-001:0514" "feedback" "si")
          "KPPIRES" "ZD_ALCOPCO-001-01-001:0514" "save" =
        storedChoice [] "KPPIRES" "ZD_ALCOPCO-001-01-001:0514" "save" ∧
      "save" ≠ "feedback" ∧
      storedChoice (handleFeedback [("a-b-c", [("save", "no")])] "a-b" "c" "feedback" "si")
          "a-b" "c" "save" =
        storedChoice [("a-b-c", [("save", "no")])] "a-b" "c" "save" :=
  ⟨⟨by decide, by decide, by decide⟩,
    ((handleFeedback_frame [] "KPPIRES" "ZDX_DMPSST0-008-01-001:0514" "KPPIRES"
      "ZD_ALCOPCO-001-01-001:0514" "feedback" "save" "si").1
        ⟨by decide, by decide, by decide⟩).2,
    by decide,
    (handleFeedback_frame [("a-b-c", [("save", "no")])] "a-b" "c" "a-b" "c" "feedback" "save"
      "si").2 (by decide)⟩

end AnalysisDetailPage

/-! ### Further properties of the upload state -/

namespace NewAnalysisPage

/-- In every reachable upload state progress lies between 0 and 100 and is a
multiple of 10, whatever submissions were made and however the ticks of the
running intervals interleave. -/
theorem uploadProgress_in_range (s : State) (hs : Reachable s) :
    s.uploadProgress ≤ 100 ∧ s.uploadProgress % 10 = 0 := by
  obtain ⟨h1, h2⟩ := reachable_uploadProgress s hs
  exact ⟨h1, Nat.mod_eq_zero_of_dvd h2⟩

/-- The range holds of the state in which two uploads tick at once. -/
theorem uploadProgress_in_range_witness :
    Reachable (step (step (step State.initial (.fileChange (some { name := "a.csv" })))
        (.fileChange (some { name := "b.csv" }))) (.tick 1)) ∧
      (step (step (step State.initial (.fileChange (some { name := "a.csv" })))
        (.fileChange (some { name := "b.csv" }))) (.tick 1)).uploadProgress ≤ 100 :=
  ⟨Reachable.step _ (Reachable.step _ (Reachable.step _ Reachable.initial)),
    (uploadProgress_in_range _
      (Reachable.step _ (Reachable.step _ (Reachable.step _ Reachable.initial)))).1⟩

end NewAnalysisPage
